import Mathlib

/-!
# Merkle Patricia trie of `common/trie/mpt` (trie.go, branch.go)

A shallow embedding of the trie engine.

Conventions of the embedding

* A Go byte slice is a `List Nat`; slices have value semantics (the sharing of
  backing arrays between slices is not modelled).
* `trieValue` is an interface: `none` is the nil interface, `some b` is a
  `byteValue` holding the bytes `b`.
* A runtime panic of the Go program is the `.error` side of `Except Panic`;
  a Go `error` return value is an ordinary component of the result.
* The memoisation slots of a node (`hashedValue`, `serializedValue`, `dirty`)
  do not influence the control flow of `get`, `set` and `delete`; the tree
  `node` carries the structural fields only. The struct of branch.go is embedded
  a second time, with its slots, as the structure `branch`, for `serialize`,
  `hash`, the branch case of `set` and the branch case of `traversalCommit`.
  `commitNode`, `traversalCommit` and `nodeHash` on `node` are the calls on
  nodes whose slots are empty; a stale slot shows only on `branch`
  (`commitBranch`, `traversalCommitBranch`).
* Recursion through the node graph is driven by a fuel argument, because a
  hash reference is resolved through the store and the resolved node is not a
  sub-term of the reference.
-/

namespace Goloop

/-- A Go byte slice. -/
abbrev Bytes := List Nat

/-- The interface `trieValue`: `none` is nil, `some b` is `byteValue(b)`. -/
abbrev trieValue := Option Bytes

/-- Runtime failures of the Go program. -/
inductive Panic
  | indexOutOfRange
  | sliceBounds
  | nilDereference
  | nilMapWrite
  | typeAssertion
  | outOfFuel
  deriving DecidableEq, Repr

/-- Values of the Go interface `error` that the engine hands back. -/
inductive GoError
  | notFound
  | ioFailure
  deriving DecidableEq, Repr

/-- The interface `node` with its four implementations; `nil` is the nil interface. -/
inductive node
  | nil
  | branch (nibbles : List node) (value : trieValue)
  | extension (sharedNibbles : List Nat) (next : node)
  | leaf (keyEnd : List Nat) (value : trieValue)
  | hash (h : Bytes)
  deriving Repr, Inhabited

/-- Backing store contents: hash ↦ serialised node. -/
abbrev Store := List (Bytes × Bytes)

/-- Modelled from the spec: the backing store adapter `get(h) -> bytes | NotFound`
(package `db` is not part of the sources). -/
def Store.get (s : Store) (h : Bytes) : Except GoError Bytes :=
  match s.lookup h with
  | some b => .ok b
  | none => .error .notFound

/-- Modelled from the spec: the backing store adapter `put(h, b)`; a later entry
for the same hash shadows the earlier one. -/
def Store.put (s : Store) (h b : Bytes) : Store := (h, b) :: s

/-- The node codec, whose code (leaf/extension serialisation, `deserialize`,
keccak-256) is not part of the sources: taken as parameters. -/
structure Codec where
  deserialize : Bytes → node
  serialize : node → Bytes
  keccak : Bytes → Bytes

/-- `bytesToNibbles`: two nibbles per byte, high nibble first. -/
def bytesToNibbles (k : Bytes) : List Nat :=
  match k with
  | [] => []
  | v :: rest => (v / 16 % 16) :: (v % 16) :: bytesToNibbles rest

/-- Modelled from the spec: `compareHex`, the length of the longest common prefix
(`m = longest_common_prefix(key_nibbles, node_key_nibbles)`); its code is not
part of the sources. -/
def compareHex : List Nat → List Nat → Nat
  | a :: as, b :: bs => if a = b then compareHex as bs + 1 else 0
  | _, _ => 0

/-- The zero value of the array `[16]node`. -/
def emptyNibbles : List node := List.replicate 16 node.nil

/-- Array read `n.nibbles[i]`. -/
def nibbleAt (nibbles : List node) (i : Nat) : Except Panic node :=
  if i < 16 then .ok (nibbles.getD i node.nil) else .error .indexOutOfRange

/-- Array write `n.nibbles[i] = x`. -/
def setNibbleAt (nibbles : List node) (i : Nat) (x : node) : Except Panic (List node) :=
  if i < 16 then .ok (nibbles.set i x) else .error .indexOutOfRange

/-- Slice read `k[i]`. -/
def byteAt (k : List Nat) (i : Nat) : Except Panic Nat :=
  match k[i]? with
  | some b => .ok b
  | none => .error .indexOutOfRange

/-- Slice expression `k[i:]`. -/
def sliceFrom (k : List Nat) (i : Nat) : Except Panic (List Nat) :=
  if i ≤ k.length then .ok (k.drop i) else .error .sliceBounds

/-- Modelled from the spec: `v.Compare(o)`, the equality predicate of values
(`byteValue` is not part of the sources); a method call on the nil interface
panics. -/
def compareValue (v o : trieValue) : Except Panic Bool :=
  match v with
  | none => .error .nilDereference
  | some a =>
    match o with
    | some b => .ok (decide (a = b))
    | none => .ok false

/-- `m.db.Get(h)`; `m.db` is an interface that may be nil. -/
def dbGet (db : Option Store) (h : Bytes) : Except Panic (Except GoError Bytes) :=
  match db with
  | none => .error .nilDereference
  | some s => .ok (s.get h)

/-- `(m *mpt) get(n, k)`: returns the (possibly resolved) node, the value and the error. -/
def mpt.get (c : Codec) (db : Option Store) :
    Nat → node → List Nat → Except Panic (node × trieValue × Option GoError)
  | 0, _, _ => .error .outOfFuel
  | fuel + 1, n, k =>
    match n with
    | .branch nibbles value =>
      match k with
      | [] => .ok (.branch nibbles value, value, none)
      | k0 :: ks => do
        let child ← nibbleAt nibbles k0
        let r ← mpt.get c db fuel child ks
        .ok (.branch (nibbles.set k0 r.1) value, r.2.1, r.2.2)
    | .extension sharedNibbles next => do
      let m := compareHex sharedNibbles k
      let r ← mpt.get c db fuel next (k.drop m)
      match r.2.2 with
      | some e => .ok (.nil, none, some e)
      | none => .ok (.extension sharedNibbles r.1, r.2.1, none)
    | .leaf keyEnd value => .ok (.leaf keyEnd value, value, none)
    | .hash h => do
      let got ← dbGet db h
      match got with
      | .error e => .ok (.nil, none, some e)
      | .ok serializedValue => mpt.get c db fuel (c.deserialize serializedValue) k
    | .nil => .ok (.nil, none, none)

/-- `(m *mpt) set(n, k, v)`: returns the replacement node and the changed flag. -/
def mpt.set (c : Codec) (db : Option Store) :
    Nat → node → List Nat → trieValue → Except Panic (node × Bool)
  | 0, _, _, _ => .error .outOfFuel
  | fuel + 1, n, k, v =>
    match n with
    | .branch nibbles value =>
      match k with
      | [] => .ok (.branch nibbles v, true)
      | k0 :: ks => do
        let child ← nibbleAt nibbles k0
        let r ← mpt.set c db fuel child ks v
        .ok (.branch (nibbles.set k0 r.1) value, true)
    | .extension sharedNibbles next =>
      let m := compareHex k sharedNibbles
      if m = 0 then do
        let k0 ← byteAt k 0
        let r ← mpt.set c db fuel .nil (k.drop 1) v
        let nb ← setNibbleAt emptyNibbles k0 r.1
        let s0 ← byteAt sharedNibbles 0
        let nb ← setNibbleAt nb s0
          (if sharedNibbles.length = 1 then next else .extension (sharedNibbles.drop 1) next)
        .ok (.branch nb none, true)
      else if m < sharedNibbles.length then do
        let sm ← byteAt sharedNibbles m
        let nb ← setNibbleAt emptyNibbles sm
          (if m + 1 = sharedNibbles.length then next
           else .extension (sharedNibbles.drop (m + 1)) next)
        if m = k.length then
          .ok (.extension (k.take m) (.branch nb v), true)
        else do
          let km ← byteAt k m
          let r ← mpt.set c db fuel .nil (k.drop (m + 1)) v
          let nb ← setNibbleAt nb km r.1
          .ok (.extension (k.take m) (.branch nb none), true)
      else if m < k.length then do
        let r ← mpt.set c db fuel next (k.drop m) v
        .ok (.extension sharedNibbles r.1, true)
      else
        match next with
        | .branch nibbles _ => .ok (.extension sharedNibbles (.branch nibbles v), true)
        | _ => .error .typeAssertion
    | .leaf keyEnd value =>
      let m := compareHex k keyEnd
      if m = 0 then do
        let same ← compareValue v value
        if same then
          .ok (.leaf keyEnd value, false)
        else do
          let (nb, bv) ←
            (match k with
             | [] => (.ok (emptyNibbles, v) : Except Panic (List node × trieValue))
             | k0 :: ks => do
               let r ← mpt.set c db fuel .nil ks v
               let nb ← setNibbleAt emptyNibbles k0 r.1
               .ok (nb, none))
          match keyEnd with
          | [] => .ok (.branch nb value, true)
          | e0 :: es => do
            let r ← mpt.set c db fuel .nil es value
            let nb ← setNibbleAt nb e0 r.1
            .ok (.branch nb bv, true)
      else if m < keyEnd.length then do
        let (nb, bv) ←
          (if m = k.length then
             (.ok (emptyNibbles, v) : Except Panic (List node × trieValue))
           else do
             let km ← byteAt k m
             let r ← mpt.set c db fuel .nil (k.drop (m + 1)) v
             let nb ← setNibbleAt emptyNibbles km r.1
             .ok (nb, none))
        let em ← byteAt keyEnd m
        let r ← mpt.set c db fuel .nil (keyEnd.drop (m + 1)) value
        let nb ← setNibbleAt nb em r.1
        .ok (.extension (k.take m) (.branch nb bv), true)
      else if m < k.length then do
        let km ← byteAt k m
        let r ← mpt.set c db fuel .nil (k.drop (m + 1)) v
        let nb ← setNibbleAt emptyNibbles km r.1
        .ok (.extension (k.take m) (.branch nb value), true)
      else
        .ok (.leaf keyEnd v, true)
    | .hash h =>
      if h.length = 0 then
        .ok (.leaf k v, true)
      else do
        let got ← dbGet db h
        let serializedValue := (match got with
          | .ok b => b
          | .error _ => [])
        mpt.set c db fuel (c.deserialize serializedValue) k v
    | .nil => .ok (.leaf k v, true)

/-- The scan of `delete` over the 16 slots of a branch: 16 when no slot is
occupied, the index of the occupied slot when exactly one is, `none` (the
source's -1) when a second occupied slot is met. -/
def remainingNibble : List node → Nat → Nat → Option Nat
  | [], _, rn => some rn
  | nn :: rest, i, rn =>
    match nn with
    | .nil => remainingNibble rest (i + 1) rn
    | _ => if rn ≠ 16 then none else remainingNibble rest (i + 1) i

/-- `(m *mpt) delete(n, k)`: returns the replacement node, the dirty flag and the error. -/
def mpt.delete (c : Codec) (db : Option Store) :
    Nat → node → List Nat → Except Panic (node × Bool × Option GoError)
  | 0, _, _ => .error .outOfFuel
  | fuel + 1, n, k =>
    match n with
    | .branch nibbles value => do
      let k0 ← byteAt k 0
      let child ← nibbleAt nibbles k0
      let r ← mpt.delete c db fuel child (k.drop 1)
      if r.2.1 = false then
        .ok (.branch nibbles value, false, none)
      else
        let nibbles := nibbles.set k0 r.1
        match remainingNibble nibbles 0 16 with
        | none => .ok (.branch nibbles value, true, none)
        | some rn =>
          if rn = 16 then
            .ok (.leaf [] value, true, none)
          else
            match nibbles.getD rn .nil with
            | .extension s nx => .ok (.extension (rn :: s) nx, true, none)
            | .branch ns bv => .ok (.extension [rn] (.branch ns bv), true, none)
            | .leaf ke lv => .ok (.leaf (rn :: ke) lv, true, none)
            | _ => .ok (.branch nibbles value, true, none)
    | .extension sharedNibbles next => do
      let rest ← sliceFrom k sharedNibbles.length
      let r ← mpt.delete c db fuel next rest
      if r.2.1 = false then
        .ok (.extension sharedNibbles next, false, none)
      else
        match r.1 with
        | .extension s _ => .ok (.extension (sharedNibbles ++ s) r.1, true, none)
        | .leaf ke lv => .ok (.leaf (sharedNibbles ++ ke) lv, true, none)
        | nextNode => .ok (.extension sharedNibbles nextNode, true, none)
    | .leaf keyEnd value =>
      if keyEnd ≠ k then .ok (.leaf keyEnd value, false, none)
      else .ok (.nil, true, none)
    | .hash h =>
      match db with
      | none => .ok (.hash h, true, none)
      | some s =>
        match s.get h with
        | .error e => .ok (.hash h, true, some e)
        | .ok serializedValue => mpt.delete c db fuel (c.deserialize serializedValue) k
    | .nil => .ok (.nil, false, none)

/-- Contents of a `map[string]trieValue`: nibble key ↦ value or tombstone (nil),
at most one entry per key. -/
abbrev Pool := List (List Nat × trieValue)

/-- Map read `v, ok := pool[k]`: `none` when the key is absent. -/
def Pool.find (p : Pool) (k : List Nat) : Option trieValue := p.lookup k

/-- Map write `pool[k] = v`. -/
def Pool.store (p : Pool) (k : List Nat) (v : trieValue) : Pool :=
  (k, v) :: p.filter (fun e => decide (e.1 ≠ k))

/-- The struct `mpt`; the map, the previous snapshot and the store are references
into the heap (`none` is nil). The mutex is not modelled. -/
structure mpt where
  root : node
  committedHash : Bytes
  rootHashed : Bool
  requestPool : Option Nat
  prevSnapshot : Option Nat
  db : Option Nat
  deriving Repr

/-- The objects a reference can point to: `*mpt` values, request pools, stores. -/
structure Heap where
  objs : List mpt
  maps : List Pool
  dbs : List Store
  deriving Repr

/-- Contents of the map behind a reference; a nil map reads as empty. -/
def Heap.pool (h : Heap) (r : Option Nat) : Pool :=
  match r with
  | none => []
  | some i => h.maps.getD i []

/-- Contents of the store behind a `db.DB` handle. -/
def Heap.store (h : Heap) (r : Option Nat) : Option Store :=
  match r with
  | none => none
  | some i => h.dbs[i]?

/-- `make(map[string]trieValue)`. -/
def Heap.makeMap (h : Heap) (p : Pool) : Heap × Nat :=
  ({ h with maps := h.maps ++ [p] }, h.maps.length)

/-- `&mpt{...}`. -/
def Heap.newObj (h : Heap) (m : mpt) : Heap × Nat :=
  ({ h with objs := h.objs ++ [m] }, h.objs.length)

/-- Map write `pool[k] = v` through a map reference. -/
def Heap.writeMap (h : Heap) (r : Nat) (k : List Nat) (v : trieValue) : Heap :=
  { h with maps := h.maps.set r ((h.maps.getD r []).store k v) }

/-- Field update through a `*mpt`. -/
def Heap.setObj (h : Heap) (p : Nat) (m : mpt) : Heap :=
  { h with objs := h.objs.set p m }

/-- `newMpt(db, initialHash)`. -/
def newMpt (h : Heap) (db : Option Nat) (initialHash : Bytes) : Heap × Nat :=
  let a := h.makeMap []
  a.1.newObj
    { root := .hash initialHash, committedHash := initialHash, rootHashed := false,
      requestPool := some a.2, prevSnapshot := none, db := db }

/-- `newImmutable(db, committedHash)`. -/
def newImmutable (h : Heap) (db : Option Nat) (committedHash : Bytes) : Heap × Nat :=
  let a := h.makeMap []
  a.1.newObj
    { root := .nil, committedHash := committedHash, rootHashed := false,
      requestPool := some a.2, prevSnapshot := none, db := db }

/-- `(m *mpt) Get(k)`: the heap after the call and the pair `([]byte, error)`. -/
def mpt.Get (c : Codec) (fuel : Nat) (h : Heap) (p : Nat) (k : Bytes) :
    Except Panic (Heap × Except GoError Bytes) :=
  match h.objs[p]? with
  | none => .error .nilDereference
  | some m =>
    let k := bytesToNibbles k
    match (h.pool m.requestPool).find k with
    | some v =>
      match v with
      | some b => .ok (h, .ok b)
      | none => .error .typeAssertion
    | none =>
      match mpt.get c (h.store m.db) fuel m.root k with
      | .error e => .error e
      | .ok (root, value, err) =>
        let h := h.setObj p { m with root := root }
        match err with
        | some e => .ok (h, .error e)
        | none =>
          match value with
          | some b => .ok (h, .ok b)
          | none => .error .nilDereference

/-- `(m *mpt) evaluateTrie(requestPool)`, along the order in which `range`
yields the entries. -/
def mpt.evaluateTrie (c : Codec) (db : Option Store) (fuel : Nat) :
    node → Pool → Except Panic node
  | root, [] => .ok root
  | root, (k, v) :: rest =>
    match v with
    | none =>
      match mpt.delete c db fuel root k with
      | .error e => .error e
      | .ok r => mpt.evaluateTrie c db fuel r.1 rest
    | some _ =>
      match mpt.set c db fuel root k v with
      | .error e => .error e
      | .ok r => mpt.evaluateTrie c db fuel r.1 rest

/-- `(m *mpt) Set(k, v)`; `none` is a nil slice. -/
def mpt.Set (h : Heap) (p : Nat) (k v : Option Bytes) : Except Panic (Heap × Option GoError) :=
  match k, v with
  | some kb, some vb =>
    match h.objs[p]? with
    | none => .error .nilDereference
    | some m =>
      match m.requestPool with
      | none => .error .nilMapWrite
      | some r =>
        .ok (h.writeMap r (bytesToNibbles kb) (some vb), none)
  | _, _ => .ok (h, none)

/-- `(m *mpt) Delete(k)`. -/
def mpt.Delete (h : Heap) (p : Nat) (k : Bytes) : Except Panic (Heap × Option GoError) :=
  match h.objs[p]? with
  | none => .error .nilDereference
  | some m =>
    match m.requestPool with
    | none => .error .nilMapWrite
    | some r =>
      .ok (h.writeMap r (bytesToNibbles k) none, none)

/-- `(m *mpt) GetSnapshot()`: the heap after the call and the new handle. -/
def mpt.GetSnapshot (h : Heap) (p : Nat) : Except Panic (Heap × Nat) :=
  match h.objs[p]? with
  | none => .error .nilDereference
  | some m =>
    let a := newImmutable h m.db m.committedHash
    match a.1.objs[a.2]? with
    | none => .error .nilDereference
    | some s =>
      let h1 := a.1.setObj a.2 { s with requestPool := m.requestPool, prevSnapshot := m.prevSnapshot }
      let b := h1.makeMap []
      .ok (b.1.setObj p { m with prevSnapshot := some a.2, requestPool := some b.2 }, a.2)

/-- The loop of `mergeSnapshot` over the snapshot's own pool: add only keys that
are not yet in the merged pool. -/
def mergeInto (mergePool : Pool) : Pool → Pool
  | [] => mergePool
  | (k, v) :: rest =>
    match mergePool.find k with
    | some _ => mergeInto mergePool rest
    | none => mergeInto (mergePool.store k v) rest

/-- The loop of `mergeSnapshot` along `prevSnapshot`. -/
def mergeLoop (h : Heap) : Nat → Option Nat → Pool → Bytes → Except Panic (Pool × Bytes)
  | 0, snapshot, mergePool, committedHash =>
    match snapshot with
    | none => .ok (mergePool, committedHash)
    | some _ => .error .outOfFuel
  | fuel + 1, snapshot, mergePool, committedHash =>
    match snapshot with
    | none => .ok (mergePool, committedHash)
    | some p =>
      match h.objs[p]? with
      | none => .error .nilDereference
      | some m =>
        mergeLoop h fuel m.prevSnapshot (mergeInto mergePool (h.pool m.requestPool))
          m.committedHash

/-- `(m *mpt) mergeSnapshot()`. -/
def mpt.mergeSnapshot (fuel : Nat) (h : Heap) (p : Nat) : Except Panic (Pool × Bytes) :=
  mergeLoop h fuel (some p) [] []

/-- The method `hash()` of a node: a method call on the nil interface panics,
a hash reference is its own hash (modelled from the spec), any other node hashes
its serialisation. -/
def nodeHash (c : Codec) : node → Except Panic Bytes
  | .nil => .error .nilDereference
  | .hash h => .ok h
  | n => .ok (c.keccak (c.serialize n))

/-- `(m *mpt) RootHash()`; `order` is the order in which `range` yields a map. -/
def mpt.RootHash (c : Codec) (order : Pool → Pool) (fuel : Nat) (h : Heap) (p : Nat) :
    Except Panic (Heap × Bytes) :=
  match h.objs[p]? with
  | none => .error .nilDereference
  | some m =>
    if m.rootHashed = true then
      match nodeHash c m.root with
      | .error e => .error e
      | .ok d => .ok (h, d)
    else
      match mpt.mergeSnapshot fuel h p with
      | .error e => .error e
      | .ok (pool, committedHash) =>
        let root := if committedHash.length ≠ 0 then node.hash committedHash else m.root
        if pool.length = 0 then
          match nodeHash c root with
          | .error e => .error e
          | .ok d => .ok (h.setObj p { m with root := root }, d)
        else
          match mpt.evaluateTrie c (h.store m.db) fuel root (order pool) with
          | .error e => .error e
          | .ok root =>
            match nodeHash c root with
            | .error e => .error e
            | .ok d => .ok (h.setObj p { m with root := root, rootHashed := true }, d)

/-- The constant `hashableSize`. -/
def hashableSize : Nat := 32

/-- The loop of `traversalCommit` over the children of a branch: stop at the
first error. -/
def commitChildren (commit : Option Store → node → Except Panic (Option Store × Option GoError)) :
    Option Store → List node → Except Panic (Option Store × Option GoError)
  | db, [] => .ok (db, none)
  | db, v :: rest =>
    match commit db v with
    | .error e => .error e
    | .ok (db, some e) => .ok (db, some e)
    | .ok (db, none) => commitChildren commit db rest

/-- The last line of `traversalCommit`, `db.Set(n.hash(), n.serialize())`, on a
node whose memoisation slots are empty, so that both methods compute from the
node's current children and value: `node` carries no slots. The same line on a
branch that carries its slots is `commitBranch`. -/
def commitNode (c : Codec) (db : Option Store) (n : node) :
    Except Panic (Option Store × Option GoError) :=
  match db with
  | none => .error .nilDereference
  | some s => .ok (some (s.put (c.keccak (c.serialize n)) (c.serialize n)), none)

/-- `traversalCommit(db, n)`: the store after the call and the error. -/
def traversalCommit (c : Codec) :
    Nat → Option Store → node → Except Panic (Option Store × Option GoError)
  | 0, _, _ => .error .outOfFuel
  | fuel + 1, db, n =>
    match n with
    | .branch nibbles _ =>
      match commitChildren (traversalCommit c fuel) db nibbles with
      | .error e => .error e
      | .ok (db, some e) => .ok (db, some e)
      | .ok (db, none) => commitNode c db n
    | .extension _ next =>
      match traversalCommit c fuel db next with
      | .error e => .error e
      | .ok (db, some e) => .ok (db, some e)
      | .ok (db, none) => commitNode c db n
    | .leaf _ _ =>
      if (c.serialize n).length < hashableSize then .ok (db, none) else commitNode c db n
    | _ => .ok (db, none)

/-- Write back the store behind a `db.DB` handle. -/
def Heap.setStore (h : Heap) (r : Option Nat) (s : Option Store) : Heap :=
  match r, s with
  | some i, some st => { h with dbs := h.dbs.set i st }
  | _, _ => h

/-- `(m *mpt) Flush()`; `order` is the order in which `range` yields a map. -/
def mpt.Flush (c : Codec) (order : Pool → Pool) (fuel : Nat) (h : Heap) (p : Nat) :
    Except Panic (Heap × Option GoError) :=
  match h.objs[p]? with
  | none => .error .nilDereference
  | some m =>
    match mpt.mergeSnapshot fuel h p with
    | .error e => .error e
    | .ok (pool, lastCommitedHash) =>
      let a := h.makeMap pool
      let m := { m with committedHash := lastCommitedHash, requestPool := some a.2 }
      if pool.length ≠ 0 then
        let evaluated : Except Panic mpt :=
          if m.rootHashed = false then
            let root := if lastCommitedHash.length ≠ 0 then node.hash lastCommitedHash else m.root
            match mpt.evaluateTrie c (h.store m.db) fuel root (order pool) with
            | .error e => .error e
            | .ok root => .ok { m with root := root, rootHashed := true }
          else .ok m
        match evaluated with
        | .error e => .error e
        | .ok m =>
          match traversalCommit c fuel (h.store m.db) m.root with
          | .error e => .error e
          | .ok (db, some e) => .ok ((a.1.setStore m.db db).setObj p m, some e)
          | .ok (db, none) =>
            match nodeHash c m.root with
            | .error e => .error e
            | .ok d =>
              .ok ((a.1.setStore m.db db).setObj p
                    { m with committedHash := d, requestPool := none, prevSnapshot := none },
                   none)
      else
        .ok (a.1.setObj p
              { m with root := .hash m.committedHash, requestPool := none, prevSnapshot := none },
             none)

/-- A call made on a live trie: `Set(k, v)` or `Delete(k)`. -/
inductive Mutation
  | set (k v : Option Bytes)
  | delete (k : Bytes)

/-- A sequence of `Set` and `Delete` calls on the trie behind `t`, in order. -/
def applyMutations (t : Nat) : Heap → List Mutation → Except Panic Heap
  | h, [] => .ok h
  | h, .set k v :: rest =>
    match mpt.Set h t k v with
    | .error e => .error e
    | .ok r => applyMutations t r.1 rest
  | h, .delete k :: rest =>
    match mpt.Delete h t k with
    | .error e => .error e
    | .ok r => applyMutations t r.1 rest

/-- The inner loop of `Reset` over one pool: an entry is written whenever
`requestPool[k] == nil`, that is when the key is absent or holds a tombstone. -/
def resetInto (requestPool : Pool) : Pool → Pool
  | [] => requestPool
  | (k, v) :: rest =>
    match requestPool.find k with
    | some (some _) => resetInto requestPool rest
    | _ => resetInto (requestPool.store k v) rest

/-- The outer loop of `Reset` along `prevSnapshot`. -/
def resetLoop (h : Heap) : Nat → Option Nat → Pool → Except Panic Pool
  | 0, snapshot, requestPool =>
    match snapshot with
    | none => .ok requestPool
    | some _ => .error .outOfFuel
  | fuel + 1, snapshot, requestPool =>
    match snapshot with
    | none => .ok requestPool
    | some p =>
      match h.objs[p]? with
      | none => .error .nilDereference
      | some m => resetLoop h fuel m.prevSnapshot (resetInto requestPool (h.pool m.requestPool))

/-- `(m *mpt) Reset(immutable)`; `none` is an argument that is not a `*mpt`. -/
def mpt.Reset (fuel : Nat) (h : Heap) (p : Nat) (immutable : Option Nat) :
    Except Panic (Heap × Option GoError) :=
  match immutable with
  | none => .ok (h, none)
  | some q =>
    match resetLoop h fuel (some q) [] with
    | .error e => .error e
    | .ok requestPool =>
      match h.objs[q]?, h.objs[p]? with
      | some immutableTrie, some m =>
        let a := h.makeMap requestPool
        .ok (a.1.setObj p
              { m with requestPool := some a.2, committedHash := immutableTrie.committedHash,
                       root := .hash immutableTrie.committedHash, db := immutableTrie.db },
             none)
      | _, _ => .error .nilDereference

/-- `addProof(buf, index, hash)`, as the slice `buf` of the caller reads after
the call: the slice made when `len(buf) == index` is assigned to the callee's own
variable only, otherwise `copy(buf[index], hash)` overwrites the first
`min(len(buf[index]), len(hash))` bytes of the element in place. -/
def addProof (buf : List Bytes) (index : Nat) (hash : Bytes) : Except Panic (List Bytes) :=
  if buf.length = index then .ok buf
  else
    match buf[index]? with
    | none => .error .indexOutOfRange
    | some b => .ok (buf.set index (hash.take b.length ++ b.drop hash.length))

/-- The bytes `proof` hands to `addProof`: the node's serialisation, or its
`hashedValue` when that memoisation slot is set. The tree of this embedding does
not carry the slot: it is the parameter `hashedValue`. -/
def proofElement (c : Codec) (hashedValue : node → Option Bytes) (n : node) : Bytes :=
  match hashedValue n with
  | none => c.serialize n
  | some d => d

/-- `(m *mpt) proof(n, k)`: returns the buffer and the depth. -/
def mpt.proof (c : Codec) (hashedValue : node → Option Bytes) (db : Option Store) :
    Nat → node → List Nat → Except Panic (List Bytes × Nat)
  | 0, _, _ => .error .outOfFuel
  | fuel + 1, n, k =>
    match n with
    | .branch nibbles _ => do
      let k0 ← byteAt k 0
      let child ← nibbleAt nibbles k0
      let r ← mpt.proof c hashedValue db fuel child (k.drop 1)
      let buf ← addProof r.1 r.2 (proofElement c hashedValue n)
      .ok (buf, r.2 + 1)
    | .extension sharedNibbles next => do
      let m := compareHex sharedNibbles k
      let r ← mpt.proof c hashedValue db fuel next (k.drop m)
      let buf ← addProof r.1 r.2 (proofElement c hashedValue n)
      .ok (buf, r.2 + 1)
    | .leaf _ _ => .ok ([], 0)
    | .hash _ => do
      let got ← dbGet db k
      let serializedValued := (match got with
        | .ok b => b
        | .error _ => [])
      mpt.proof c hashedValue db fuel (c.deserialize serializedValued) k
    | .nil => .ok ([], 1)

/-- `(m *mpt) Proof(k)`; `m.root.serialize()` is a method call that panics on the
nil interface and otherwise only fills memoisation slots. -/
def mpt.Proof (c : Codec) (hashedValue : node → Option Bytes) (fuel : Nat) (h : Heap) (p : Nat)
    (k : Bytes) : Except Panic (List Bytes) :=
  match h.objs[p]? with
  | none => .error .nilDereference
  | some m =>
    match m.root with
    | .nil => .error .nilDereference
    | root =>
      match mpt.proof c hashedValue (h.store m.db) fuel root (bytesToNibbles k) with
      | .error e => .error e
      | .ok r => .ok r.1

/-- The snapshot chain that starts at a reference: the objects met by following
`prevSnapshot` until nil. -/
def chainOf (h : Heap) : Option Nat → List mpt → Prop
  | cur, [] => cur = none
  | cur, m :: ms => ∃ p, cur = some p ∧ h.objs[p]? = some m ∧ chainOf h m.prevSnapshot ms

/-- The shadowing rule: the entry of the first (youngest) pool that has the key. -/
def shadowFind (pools : List Pool) (k : List Nat) : Option trieValue :=
  pools.findSome? (fun pool => pool.find k)

/-- The nodes of the materialised graph under a node: the node itself, the
children of a branch, the next node of an extension, and so on. -/
inductive Reach : node → node → Prop
  | self (n : node) : Reach n n
  | child (nibbles : List node) (value : trieValue) (ch x : node) :
      ch ∈ nibbles → Reach ch x → Reach (.branch nibbles value) x
  | next (sharedNibbles : List Nat) (nx x : node) :
      Reach nx x → Reach (.extension sharedNibbles nx) x

/-- A branch, extension or leaf, as opposed to nil and to a hash reference. -/
def materialised : node → Bool
  | .branch _ _ => true
  | .extension _ _ => true
  | .leaf _ _ => true
  | _ => false

/-- The pairs held by a store handle; nil holds none. -/
def storeOf (db : Option Store) : Store :=
  match db with
  | none => []
  | some s => s

/-- The byte codec of the serialisation (`encodeByte`, `encodeList`), whose code is
not part of the sources: taken as parameters. `encodeByte(nil)` is `encodeByte`
of the empty slice. -/
structure Encoder where
  encodeByte : Bytes → Bytes
  encodeList : List Bytes → Bytes

/-- The struct `branch` of branch.go with its memoisation slots. Its children are
values of the interface `node`: their methods `serialize()` and `hash()` are
`Codec.serialize` and `nodeHash`. -/
structure branch where
  nibbles : List node
  value : trieValue
  hashedValue : Option Bytes
  serializedValue : Option Bytes
  dirty : Bool

/-- The body of the loop of `branch.serialize` for one slot. -/
def serializeNibble (c : Codec) (e : Encoder) (n : node) : Except Panic Bytes :=
  match n with
  | .nil => .ok (e.encodeByte [])
  | n =>
    if hashableSize ≤ (c.serialize n).length then
      match nodeHash c n with
      | .error err => .error err
      | .ok d => .ok (e.encodeByte d)
    else .ok (c.serialize n)

/-- The loop of `branch.serialize` over the slot indices, appending to
`serializedNodes`. -/
def serializeLoop (c : Codec) (e : Encoder) (nibbles : List node) :
    List Nat → Bytes → Except Panic Bytes
  | [], serializedNodes => .ok serializedNodes
  | i :: rest, serializedNodes =>
    match serializeNibble c e (nibbles.getD i node.nil) with
    | .error err => .error err
    | .ok serialized => serializeLoop c e nibbles rest (serializedNodes ++ serialized)

/-- `(br *branch) serialize()`: the bytes returned and the branch after the call. -/
def branch.serialize (c : Codec) (e : Encoder) (br : branch) : Except Panic (Bytes × branch) :=
  let br : branch :=
    if br.dirty = true then ⟨br.nibbles, br.value, none, none, br.dirty⟩ else br
  match br.dirty, br.serializedValue with
  | false, some s => .ok (s, br)
  | _, _ =>
    match serializeLoop c e br.nibbles (List.range 16) [] with
    | .error err => .error err
    | .ok serializedNodes =>
      let serialized := e.encodeList [serializedNodes,
        e.encodeByte (match br.value with
          | none => []
          | some b => b)]
      .ok (serialized, ⟨br.nibbles, br.value, none, some serialized, false⟩)

/-- `(br *branch) hash()`: the digest returned and the branch after the call. -/
def branch.hash (c : Codec) (e : Encoder) (br : branch) : Except Panic (Bytes × branch) :=
  let br : branch :=
    if br.dirty = true then ⟨br.nibbles, br.value, none, none, br.dirty⟩ else br
  match br.dirty, br.hashedValue with
  | false, some d => .ok (d, br)
  | _, _ =>
    match branch.serialize c e br with
    | .error err => .error err
    | .ok r =>
      let digest := c.keccak r.1
      .ok (digest, ⟨r.2.nibbles, r.2.value, some digest, r.2.serializedValue, false⟩)

/-- The case `*branch` of `set` on a branch that carries its memoisation slots:
`n.value = v` for the empty key, otherwise
`n.nibbles[k[0]], n.dirty = m.set(n.nibbles[k[0]], k[1:], v)`. -/
def mpt.setBranch (c : Codec) (db : Option Store) (fuel : Nat) (n : branch) (k : List Nat)
    (v : trieValue) : Except Panic (branch × Bool) :=
  match k with
  | [] => .ok (⟨n.nibbles, v, n.hashedValue, n.serializedValue, n.dirty⟩, true)
  | k0 :: ks =>
    match nibbleAt n.nibbles k0 with
    | .error err => .error err
    | .ok child =>
      match mpt.set c db fuel child ks v with
      | .error err => .error err
      | .ok r => .ok (⟨n.nibbles.set k0 r.1, n.value, n.hashedValue, n.serializedValue, r.2⟩, true)

/-- Invariant 1 on a fully resolved tree: no hash reference, and no extension with
an empty shared-nibble vector. -/
inductive NoEmptyShared : node → Prop
  | nil : NoEmptyShared node.nil
  | leaf (keyEnd : List Nat) (value : trieValue) : NoEmptyShared (.leaf keyEnd value)
  | branch (nibbles : List node) (value : trieValue) :
      (∀ ch ∈ nibbles, NoEmptyShared ch) → NoEmptyShared (.branch nibbles value)
  | extension (sharedNibbles : List Nat) (next : node) :
      sharedNibbles ≠ [] → NoEmptyShared next → NoEmptyShared (.extension sharedNibbles next)

/-- The case `*branch` of the type switch in the case `hash` of `get`:
`m.hashedValue = n` on the branch that `deserialize` returned. -/
def resolvedBranch (n : Bytes) (m : branch) : branch :=
  ⟨m.nibbles, m.value, some n, m.serializedValue, m.dirty⟩

/-- The last line of `traversalCommit`, `db.Set(n.hash(), n.serialize())`, on a
branch that carries its memoisation slots: the operands are evaluated from left
to right, `hash()` before `serialize()`. Yields the store, the error and the
branch after the call. -/
def commitBranch (c : Codec) (e : Encoder) (db : Option Store) (br : branch) :
    Except Panic (Option Store × Option GoError × branch) :=
  match branch.hash c e br with
  | .error err => .error err
  | .ok (d, br) =>
    match branch.serialize c e br with
    | .error err => .error err
    | .ok (s, br) =>
      match db with
      | none => .error .nilDereference
      | some st => .ok (some (st.put d s), none, br)

/-- `traversalCommit(db, n)` on a branch that carries its memoisation slots: the
children first, by `traversalCommit`, then the branch itself. -/
def traversalCommitBranch (c : Codec) (e : Encoder) (fuel : Nat) (db : Option Store)
    (br : branch) : Except Panic (Option Store × Option GoError × branch) :=
  match commitChildren (traversalCommit c fuel) db br.nibbles with
  | .error err => .error err
  | .ok (db, some err) => .ok (db, some err, br)
  | .ok (db, none) => commitBranch c e db br

/-! ## Node level: `get`, `set`, `delete` -/

/-- C1: on the tree built from the empty tree by the single write `("do","verb")`,
the node-level `get` for the key `"dog"` returns the value `"verb"` instead of no
value: the leaf case of `get` hands back the leaf's value without comparing the
key. -/
theorem get_leaf_returns_value_for_other_key (c : Codec) (db : Option Store) (f g : Nat) :
    mpt.evaluateTrie c db (f + 1) node.nil [(bytesToNibbles [100, 111], some [118, 101, 114, 98])]
        = .ok (.leaf [6, 4, 6, 15] (some [118, 101, 114, 98]))
      ∧ mpt.get c db (g + 1) (.leaf [6, 4, 6, 15] (some [118, 101, 114, 98]))
          (bytesToNibbles [100, 111, 103])
        = .ok (.leaf [6, 4, 6, 15] (some [118, 101, 114, 98]), some [118, 101, 114, 98], none) :=
  ⟨rfl, rfl⟩

/-- A slice is its own longest common prefix with any extension of it. -/
theorem compareHex_append_left (ke r : List Nat) : compareHex (ke ++ r) ke = ke.length := by
  induction ke with
  | nil => cases r <;> simp [compareHex]
  | cons a as ih => simp [compareHex, ih]

/-- The slice `k[i]` right after a prefix. -/
theorem byteAt_append_length (ke : List Nat) (r0 : Nat) (rs : List Nat) :
    byteAt (ke ++ r0 :: rs) ke.length = .ok r0 := by
  have h : (ke ++ r0 :: rs)[ke.length]? = some r0 := by
    rw [List.getElem?_append_right (le_refl _)]
    simp
  simp [byteAt, h]

/-- Reading back the slot just written in a fresh array. -/
theorem emptyNibbles_set_get (i : Nat) (x : node) (hi : i < 16) :
    (emptyNibbles.set i x)[i]? = some x := by
  simp [emptyNibbles, hi]

/-- The other slots of a fresh array stay empty after one write. -/
theorem emptyNibbles_set_get_ne (i j : Nat) (x : node) (hj : j < 16) (hne : j ≠ i) :
    (emptyNibbles.set i x)[j]? = some node.nil := by
  unfold emptyNibbles
  rw [List.getElem?_set_ne (Ne.symm hne), List.getElem?_replicate]
  simp [hj]

/-- C7: on the tree built from the empty tree by writing the one-byte keys `0x12`
and `0x13` (nibbles `[1,2]` and `[1,3]`), deleting the key `0x52` (nibbles
`[5,2]`), which is not stored and does not begin with the extension's shared
nibble, removes the entry of `0x12` and reports a change: the extension case of
`delete` strips `len(shared)` nibbles without comparing them. -/
theorem delete_absent_key_removes_other_entry (c : Codec) (db : Option Store) (f g : Nat) :
    mpt.evaluateTrie c db (f + 2) node.nil
        [(bytesToNibbles [18], some [97]), (bytesToNibbles [19], some [98])]
        = .ok (.extension [1] (.branch
            ((emptyNibbles.set 2 (.leaf [] (some [97]))).set 3 (.leaf [] (some [98]))) none))
      ∧ mpt.delete c db (g + 3)
          (.extension [1] (.branch
            ((emptyNibbles.set 2 (.leaf [] (some [97]))).set 3 (.leaf [] (some [98]))) none))
          (bytesToNibbles [82])
        = .ok (.leaf [1, 3] (some [98]), true, none) :=
  ⟨rfl, rfl⟩

/-- C8: on the tree built by inserting `("do","verb")` and then `("dog","puppy")`,
`delete(nibbles("do"))` does not complete: the extension hands the empty
remainder to the branch, whose case reads `k[0]` without testing `len(k)`, a
runtime index failure. -/
theorem delete_branch_value_key_fails (c : Codec) (db : Option Store) (f g : Nat) :
    mpt.evaluateTrie c db (f + 2) node.nil
        [(bytesToNibbles [100, 111], some [118, 101, 114, 98]),
         (bytesToNibbles [100, 111, 103], some [112, 117, 112, 112, 121])]
        = .ok (.extension [6, 4, 6, 15] (.branch
            (emptyNibbles.set 6 (.leaf [7] (some [112, 117, 112, 112, 121])))
            (some [118, 101, 114, 98])))
      ∧ mpt.delete c db (g + 2)
          (.extension [6, 4, 6, 15] (.branch
            (emptyNibbles.set 6 (.leaf [7] (some [112, 117, 112, 112, 121])))
            (some [118, 101, 114, 98])))
          (bytesToNibbles [100, 111])
        = .error .indexOutOfRange :=
  ⟨rfl, rfl⟩

/-- C9: for a leaf `Leaf(ke, ov)` with `ke` non-empty, a remainder `r0 :: rs` with
`r0` a nibble and any value `v`, `set(Leaf(ke, ov), ke ++ r0 :: rs, v)` returns
`Extension(ke, Branch)` with changed = true, where the branch's value slot is
`ov`, its child at nibble `r0` is `Leaf(rs, v)` and its other 15 children are
empty. -/
theorem set_leaf_key_extending_leaf (c : Codec) (db : Option Store) (fuel : Nat)
    (ke : List Nat) (ov : trieValue) (r0 : Nat) (rs : List Nat) (v : trieValue)
    (hke : ke ≠ []) (hr : r0 < 16) :
    ∃ nibbles : List node,
      mpt.set c db (fuel + 2) (.leaf ke ov) (ke ++ r0 :: rs) v
          = .ok (.extension ke (.branch nibbles ov), true)
        ∧ nibbles.length = 16
        ∧ nibbles[r0]? = some (.leaf rs v)
        ∧ ∀ i, i < 16 → i ≠ r0 → nibbles[i]? = some node.nil := by
  refine ⟨emptyNibbles.set r0 (.leaf rs v), ?_, by simp [emptyNibbles],
    emptyNibbles_set_get r0 _ hr, fun i hi hne => emptyNibbles_set_get_ne r0 i _ hi hne⟩
  have hlen : ke.length ≠ 0 := by
    intro h
    exact hke (List.length_eq_zero.mp h)
  have hdrop : List.drop (ke.length + 1) (ke ++ r0 :: rs) = rs := by
    rw [List.drop_append_eq_append_drop]
    simp
  simp only [mpt.set, compareHex_append_left, hlen, if_false, lt_irrefl, List.length_append,
    List.length_cons, byteAt_append_length, hdrop, setNibbleAt, hr, if_true, List.take_left',
    bind, Except.bind]
  simp

/-- C9, at the tree of `("do","verb")` and the key of `("dog","puppy")`: an
extension over `nibbles("do")` to a branch with value `"verb"` whose child at
nibble 6 is the leaf `([7], "puppy")`. -/
theorem set_leaf_key_extending_leaf_witness :
    ∃ nibbles : List node,
      mpt.set ⟨fun _ => node.nil, fun _ => [], fun b => b⟩ none 2
          (.leaf [6, 4, 6, 15] (some [118, 101, 114, 98]))
          ([6, 4, 6, 15] ++ 6 :: [7]) (some [112, 117, 112, 112, 121])
          = .ok (.extension [6, 4, 6, 15] (.branch nibbles (some [118, 101, 114, 98])), true)
        ∧ nibbles.length = 16
        ∧ nibbles[6]? = some (.leaf [7] (some [112, 117, 112, 112, 121]))
        ∧ ∀ i, i < 16 → i ≠ 6 → nibbles[i]? = some node.nil :=
  set_leaf_key_extending_leaf ⟨fun _ => node.nil, fun _ => [], fun b => b⟩ none 0
    [6, 4, 6, 15] (some [118, 101, 114, 98]) 6 [7] (some [112, 117, 112, 112, 121])
    (by decide) (by decide)

/-! ## Pool, evaluation, root hash and flush -/

/-- C4: the pool holding the one-byte keys `0x10 ↦ "a"` and `0x20 ↦ "a"`
(nibbles `[1,0]` and `[2,0]`) evaluates, from the empty root, to the leaf of
`0x10` when its entries are ranged over in one order and to the leaf of `0x20`
in the other: in the `match == 0` case of a leaf, `set` returns the leaf
unchanged as soon as the new value equals the leaf's value, whatever the keys. -/
theorem evaluateTrie_depends_on_order (c : Codec) (db : Option Store) (f : Nat) :
    List.Perm [(bytesToNibbles [16], (some [97] : trieValue)), (bytesToNibbles [32], some [97])]
        [(bytesToNibbles [32], some [97]), (bytesToNibbles [16], some [97])]
      ∧ mpt.evaluateTrie c db (f + 1) (.hash [])
          [(bytesToNibbles [16], some [97]), (bytesToNibbles [32], some [97])]
          = .ok (.leaf [1, 0] (some [97]))
      ∧ mpt.evaluateTrie c db (f + 1) (.hash [])
          [(bytesToNibbles [32], some [97]), (bytesToNibbles [16], some [97])]
          = .ok (.leaf [2, 0] (some [97]))
      ∧ node.leaf [1, 0] (some [97]) ≠ node.leaf [2, 0] (some [97]) :=
  ⟨List.Perm.swap _ _ _, rfl, rfl, by simp⟩

/-- Reading a map right after the write `pool[k] = v`. -/
theorem Pool.find_store (p : Pool) (k : List Nat) (v : trieValue) :
    (p.store k v).find k = some v := by
  simp [Pool.find, Pool.store, List.lookup]

/-- C2: on a trie whose request pool is allocated, for non-nil `k` and `v`,
`Set(k, v)` returns without error and `Get(k)` then returns `v` without error,
whatever the root, the snapshot chain and the store are. -/
theorem Get_after_Set (c : Codec) (fuel : Nat) (h : Heap) (p : Nat) (m : mpt) (r : Nat)
    (kb vb : Bytes) (hobj : h.objs[p]? = some m) (hpool : m.requestPool = some r)
    (hr : r < h.maps.length) :
    ∃ h1 : Heap, mpt.Set h p (some kb) (some vb) = .ok (h1, none)
      ∧ mpt.Get c fuel h1 p kb = .ok (h1, .ok vb) := by
  refine ⟨h.writeMap r (bytesToNibbles kb) (some vb), by simp [mpt.Set, hobj, hpool], ?_⟩
  simp [mpt.Get, Heap.writeMap, hobj, hpool, Heap.pool, List.getD, hr, Pool.find_store]

/-- C2 on the trie made by `newMpt` over the empty hash, key `"a"`, value `"1"`. -/
theorem Get_after_Set_witness :
    ∃ h1 : Heap, mpt.Set (newMpt ⟨[], [], []⟩ none []).1 0 (some [97]) (some [49]) = .ok (h1, none)
      ∧ mpt.Get ⟨fun _ => node.nil, fun _ => [], fun b => b⟩ 0 h1 0 [97] = .ok (h1, .ok [49]) :=
  Get_after_Set ⟨fun _ => node.nil, fun _ => [], fun b => b⟩ 0 (newMpt ⟨[], [], []⟩ none []).1 0
    { root := .hash [], committedHash := [], rootHashed := false, requestPool := some 0,
      prevSnapshot := none, db := none } 0 [97] [49] rfl rfl (by decide)

/-- C3: on a trie whose request pool is allocated, after `Set(k, v)` and
`Delete(k)` the call `Get(k)` does not complete: it finds the tombstone in the
pool and asserts it to be a `byteValue`, a failing type assertion on the nil
interface. -/
theorem Get_after_Delete_fails (c : Codec) (fuel : Nat) (h : Heap) (p : Nat) (m : mpt) (r : Nat)
    (kb vb : Bytes) (hobj : h.objs[p]? = some m) (hpool : m.requestPool = some r)
    (hr : r < h.maps.length) :
    ∃ h1 h2 : Heap, mpt.Set h p (some kb) (some vb) = .ok (h1, none)
      ∧ mpt.Delete h1 p kb = .ok (h2, none)
      ∧ mpt.Get c fuel h2 p kb = .error .typeAssertion := by
  refine ⟨h.writeMap r (bytesToNibbles kb) (some vb),
    (h.writeMap r (bytesToNibbles kb) (some vb)).writeMap r (bytesToNibbles kb) none,
    by simp [mpt.Set, hobj, hpool], ?_, ?_⟩
  · simp [mpt.Delete, Heap.writeMap, hobj, hpool]
  · simp [mpt.Get, Heap.writeMap, hobj, hpool, Heap.pool, List.getD, hr, Pool.find_store]

/-- C3 on the trie made by `newMpt` over the empty hash, key `"a"`, value `"1"`. -/
theorem Get_after_Delete_fails_witness :
    ∃ h1 h2 : Heap,
      mpt.Set (newMpt ⟨[], [], []⟩ none []).1 0 (some [97]) (some [49]) = .ok (h1, none)
      ∧ mpt.Delete h1 0 [97] = .ok (h2, none)
      ∧ mpt.Get ⟨fun _ => node.nil, fun _ => [], fun b => b⟩ 5 h2 0 [97] = .error .typeAssertion :=
  Get_after_Delete_fails ⟨fun _ => node.nil, fun _ => [], fun b => b⟩ 5
    (newMpt ⟨[], [], []⟩ none []).1 0
    { root := .hash [], committedHash := [], rootHashed := false, requestPool := some 0,
      prevSnapshot := none, db := none } 0 [97] [49] rfl rfl (by decide)

/-- C5: on a fresh trie over the empty hash, after `Set("a","1")`, `RootHash()`,
`Set("b","2")`, the next `RootHash()` returns the hash of the leaf of `"a"`
again, although the merged pool holds both entries and evaluates (in either
order) to an extension over a two-child branch: `rootHashed` stays set once the
pool has been evaluated, `Set` does not clear it, and `RootHash` returns early. -/
theorem RootHash_ignores_later_Set (c : Codec) (order : Pool → Pool) (f : Nat)
    (horder : ∀ p : Pool, (order p).Perm p) :
    ∃ h1 h2 h3 : Heap,
      mpt.Set (newMpt ⟨[], [], []⟩ none []).1 0 (some [97]) (some [49]) = .ok (h1, none)
      ∧ mpt.RootHash c order (f + 2) h1 0
          = .ok (h2, c.keccak (c.serialize (.leaf [6, 1] (some [49]))))
      ∧ mpt.Set h2 0 (some [98]) (some [50]) = .ok (h3, none)
      ∧ mpt.mergeSnapshot (f + 2) h3 0 = .ok ([([6, 1], some [49]), ([6, 2], some [50])], [])
      ∧ mpt.RootHash c order (f + 2) h3 0
          = .ok (h3, c.keccak (c.serialize (.leaf [6, 1] (some [49]))))
      ∧ mpt.evaluateTrie c none (f + 2) (.hash []) [([6, 1], some [49]), ([6, 2], some [50])]
          = .ok (.extension [6] (.branch
              ((emptyNibbles.set 1 (.leaf [] (some [49]))).set 2 (.leaf [] (some [50]))) none))
      ∧ mpt.evaluateTrie c none (f + 2) (.hash []) [([6, 2], some [50]), ([6, 1], some [49])]
          = .ok (.extension [6] (.branch
              ((emptyNibbles.set 1 (.leaf [] (some [49]))).set 2 (.leaf [] (some [50]))) none)) := by
  have ho : order [([6, 1], some [49])] = [([6, 1], some [49])] :=
    List.perm_singleton.mp (horder _)
  refine ⟨⟨[{ root := .hash [], committedHash := [], rootHashed := false, requestPool := some 0,
              prevSnapshot := none, db := none }], [[([6, 1], some [49])]], []⟩,
    ⟨[{ root := .leaf [6, 1] (some [49]), committedHash := [], rootHashed := true,
        requestPool := some 0, prevSnapshot := none, db := none }], [[([6, 1], some [49])]], []⟩,
    ⟨[{ root := .leaf [6, 1] (some [49]), committedHash := [], rootHashed := true,
        requestPool := some 0, prevSnapshot := none, db := none }],
      [[([6, 2], some [50]), ([6, 1], some [49])]], []⟩,
    rfl, ?_, rfl, rfl, rfl, rfl, rfl⟩
  have e : mpt.RootHash c order (f + 2)
      ⟨[{ root := .hash [], committedHash := [], rootHashed := false, requestPool := some 0,
          prevSnapshot := none, db := none }], [[([6, 1], some [49])]], []⟩ 0
      = (match mpt.evaluateTrie c none (f + 2) (.hash []) (order [([6, 1], some [49])]) with
        | .error e => .error e
        | .ok root =>
          match nodeHash c root with
          | .error e => .error e
          | .ok d =>
            .ok (⟨[{ root := root, committedHash := [], rootHashed := true,
                     requestPool := some 0, prevSnapshot := none, db := none }],
                  [[([6, 1], some [49])]], []⟩, d)) := rfl
  rw [e, ho]
  rfl

/-- C5 with the identity as the range order. -/
theorem RootHash_ignores_later_Set_witness :
    ∃ h1 h2 h3 : Heap,
      mpt.Set (newMpt ⟨[], [], []⟩ none []).1 0 (some [97]) (some [49]) = .ok (h1, none)
      ∧ mpt.RootHash ⟨fun _ => node.nil, fun _ => [], fun b => b⟩ (fun p => p) (0 + 2) h1 0
          = .ok (h2, [])
      ∧ mpt.Set h2 0 (some [98]) (some [50]) = .ok (h3, none)
      ∧ mpt.mergeSnapshot (0 + 2) h3 0 = .ok ([([6, 1], some [49]), ([6, 2], some [50])], [])
      ∧ mpt.RootHash ⟨fun _ => node.nil, fun _ => [], fun b => b⟩ (fun p => p) (0 + 2) h3 0
          = .ok (h3, [])
      ∧ mpt.evaluateTrie ⟨fun _ => node.nil, fun _ => [], fun b => b⟩ none (0 + 2) (.hash [])
          [([6, 1], some [49]), ([6, 2], some [50])]
          = .ok (.extension [6] (.branch
              ((emptyNibbles.set 1 (.leaf [] (some [49]))).set 2 (.leaf [] (some [50]))) none))
      ∧ mpt.evaluateTrie ⟨fun _ => node.nil, fun _ => [], fun b => b⟩ none (0 + 2) (.hash [])
          [([6, 2], some [50]), ([6, 1], some [49])]
          = .ok (.extension [6] (.branch
              ((emptyNibbles.set 1 (.leaf [] (some [49]))).set 2 (.leaf [] (some [50]))) none)) :=
  RootHash_ignores_later_Set ⟨fun _ => node.nil, fun _ => [], fun b => b⟩ (fun p => p) 0
    (fun p => List.Perm.refl p)

/-- `traversalCommit` on a leaf: stored only from `hashableSize` bytes on. -/
theorem traversalCommit_leaf (c : Codec) (fuel : Nat) (db : Option Store) (ke : List Nat)
    (v : trieValue) :
    traversalCommit c (fuel + 1) db (.leaf ke v)
      = if (c.serialize (.leaf ke v)).length < hashableSize then .ok (db, none)
        else commitNode c db (.leaf ke v) := rfl

/-- The first `RootHash()` of a fresh trie over the empty hash whose pool holds
one entry: the root becomes the leaf of that entry and `rootHashed` is set. -/
theorem RootHash_fresh_single (c : Codec) (order : Pool → Pool) (f : Nat)
    (horder : ∀ p : Pool, (order p).Perm p) (k : List Nat) (v : Bytes) (db : Option Nat)
    (dbs : List Store) :
    mpt.RootHash c order (f + 2) ⟨[⟨.hash [], [], false, some 0, none, db⟩], [[(k, some v)]], dbs⟩ 0
      = .ok (⟨[⟨.leaf k (some v), [], true, some 0, none, db⟩], [[(k, some v)]], dbs⟩,
             c.keccak (c.serialize (.leaf k (some v)))) := by
  have ho : order [(k, some v)] = [(k, some v)] := List.perm_singleton.mp (horder _)
  have e : mpt.RootHash c order (f + 2)
      ⟨[⟨.hash [], [], false, some 0, none, db⟩], [[(k, some v)]], dbs⟩ 0
      = (match mpt.evaluateTrie c
            (Heap.store ⟨[⟨.hash [], [], false, some 0, none, db⟩], [[(k, some v)]], dbs⟩ db)
            (f + 2) (.hash []) (order [(k, some v)]) with
        | .error e => .error e
        | .ok root =>
          match nodeHash c root with
          | .error e => .error e
          | .ok d => .ok (⟨[⟨root, [], true, some 0, none, db⟩], [[(k, some v)]], dbs⟩, d)) := rfl
  rw [e, ho]
  rfl

/-- C6: on a fresh trie over the empty hash and an empty store, after
`Set("a","1")`, `RootHash()`, `Set("b","2")`, the call `Flush()` returns without
error although the merged pool holds both entries, leaves the leaf of `"a"` as
root and commits the hash of that leaf: `Flush` evaluates the pool only while
`rootHashed` is false, and the earlier `RootHash()` has set it. -/
theorem Flush_skips_pool_after_RootHash (c : Codec) (order : Pool → Pool) (f : Nat)
    (horder : ∀ p : Pool, (order p).Perm p) :
    ∃ h1 h2 h3 h4 : Heap,
      mpt.Set (newMpt ⟨[], [], [[]]⟩ (some 0) []).1 0 (some [97]) (some [49]) = .ok (h1, none)
      ∧ mpt.RootHash c order (f + 2) h1 0
          = .ok (h2, c.keccak (c.serialize (.leaf [6, 1] (some [49]))))
      ∧ mpt.Set h2 0 (some [98]) (some [50]) = .ok (h3, none)
      ∧ mpt.mergeSnapshot (f + 2) h3 0 = .ok ([([6, 1], some [49]), ([6, 2], some [50])], [])
      ∧ mpt.Flush c order (f + 2) h3 0 = .ok (h4, none)
      ∧ h4.objs[0]? = some ⟨.leaf [6, 1] (some [49]),
          c.keccak (c.serialize (.leaf [6, 1] (some [49]))), true, none, none, some 0⟩
      ∧ mpt.evaluateTrie c (some []) (f + 2) (.hash []) [([6, 1], some [49]), ([6, 2], some [50])]
          = .ok (.extension [6] (.branch
              ((emptyNibbles.set 1 (.leaf [] (some [49]))).set 2 (.leaf [] (some [50]))) none))
      ∧ mpt.evaluateTrie c (some []) (f + 2) (.hash []) [([6, 2], some [50]), ([6, 1], some [49])]
          = .ok (.extension [6] (.branch
              ((emptyNibbles.set 1 (.leaf [] (some [49]))).set 2 (.leaf [] (some [50]))) none)) := by
  by_cases hlen : (c.serialize (.leaf [6, 1] (some [49]))).length < hashableSize
  · refine ⟨⟨[⟨.hash [], [], false, some 0, none, some 0⟩], [[([6, 1], some [49])]], [[]]⟩,
      ⟨[⟨.leaf [6, 1] (some [49]), [], true, some 0, none, some 0⟩], [[([6, 1], some [49])]], [[]]⟩,
      ⟨[⟨.leaf [6, 1] (some [49]), [], true, some 0, none, some 0⟩],
        [[([6, 2], some [50]), ([6, 1], some [49])]], [[]]⟩,
      ⟨[⟨.leaf [6, 1] (some [49]), c.keccak (c.serialize (.leaf [6, 1] (some [49]))), true, none,
          none, some 0⟩],
        [[([6, 2], some [50]), ([6, 1], some [49])], [([6, 1], some [49]), ([6, 2], some [50])]],
        [[]]⟩,
      rfl, RootHash_fresh_single c order f horder _ _ _ _, rfl, rfl, ?_, rfl, rfl, rfl⟩
    simp only [mpt.Flush, mpt.mergeSnapshot, mergeLoop]
    simp [traversalCommit_leaf c (f + 1), hlen, Heap.pool, mergeInto, Pool.find, Pool.store,
      List.lookup, nodeHash, Heap.store, Heap.makeMap, Heap.setStore, Heap.setObj, commitNode]
  · refine ⟨⟨[⟨.hash [], [], false, some 0, none, some 0⟩], [[([6, 1], some [49])]], [[]]⟩,
      ⟨[⟨.leaf [6, 1] (some [49]), [], true, some 0, none, some 0⟩], [[([6, 1], some [49])]], [[]]⟩,
      ⟨[⟨.leaf [6, 1] (some [49]), [], true, some 0, none, some 0⟩],
        [[([6, 2], some [50]), ([6, 1], some [49])]], [[]]⟩,
      ⟨[⟨.leaf [6, 1] (some [49]), c.keccak (c.serialize (.leaf [6, 1] (some [49]))), true, none,
          none, some 0⟩],
        [[([6, 2], some [50]), ([6, 1], some [49])], [([6, 1], some [49]), ([6, 2], some [50])]],
        [[(c.keccak (c.serialize (.leaf [6, 1] (some [49]))),
           c.serialize (.leaf [6, 1] (some [49])))]]⟩,
      rfl, RootHash_fresh_single c order f horder _ _ _ _, rfl, rfl, ?_, rfl, rfl, rfl⟩
    simp only [mpt.Flush, mpt.mergeSnapshot, mergeLoop]
    simp [traversalCommit_leaf c (f + 1), hlen, Heap.pool, mergeInto, Pool.find, Pool.store,
      List.lookup, nodeHash, Heap.store, Heap.makeMap, Heap.setStore, Heap.setObj, Store.put, commitNode]

/-- C6 with the identity as the range order and a codec whose serialisations are empty. -/
theorem Flush_skips_pool_after_RootHash_witness :
    ∃ h1 h2 h3 h4 : Heap,
      mpt.Set (newMpt ⟨[], [], [[]]⟩ (some 0) []).1 0 (some [97]) (some [49]) = .ok (h1, none)
      ∧ mpt.RootHash ⟨fun _ => node.nil, fun _ => [], fun b => b⟩ (fun p => p) (0 + 2) h1 0
          = .ok (h2, [])
      ∧ mpt.Set h2 0 (some [98]) (some [50]) = .ok (h3, none)
      ∧ mpt.mergeSnapshot (0 + 2) h3 0 = .ok ([([6, 1], some [49]), ([6, 2], some [50])], [])
      ∧ mpt.Flush ⟨fun _ => node.nil, fun _ => [], fun b => b⟩ (fun p => p) (0 + 2) h3 0
          = .ok (h4, none)
      ∧ h4.objs[0]? = some ⟨.leaf [6, 1] (some [49]), [], true, none, none, some 0⟩
      ∧ mpt.evaluateTrie ⟨fun _ => node.nil, fun _ => [], fun b => b⟩ (some []) (0 + 2) (.hash [])
          [([6, 1], some [49]), ([6, 2], some [50])]
          = .ok (.extension [6] (.branch
              ((emptyNibbles.set 1 (.leaf [] (some [49]))).set 2 (.leaf [] (some [50]))) none))
      ∧ mpt.evaluateTrie ⟨fun _ => node.nil, fun _ => [], fun b => b⟩ (some []) (0 + 2) (.hash [])
          [([6, 2], some [50]), ([6, 1], some [49])]
          = .ok (.extension [6] (.branch
              ((emptyNibbles.set 1 (.leaf [] (some [49]))).set 2 (.leaf [] (some [50]))) none)) :=
  Flush_skips_pool_after_RootHash ⟨fun _ => node.nil, fun _ => [], fun b => b⟩ (fun p => p) 0
    (fun p => List.Perm.refl p)

/-- What `GetSnapshot` does to the heap. -/
theorem GetSnapshot_heap (h0 : Heap) (t : Nat) (m0 : mpt) (hobj : h0.objs[t]? = some m0) :
    ∃ h1 : Heap, mpt.GetSnapshot h0 t = .ok (h1, h0.objs.length)
      ∧ h1.maps = h0.maps ++ [[], []]
      ∧ h1.dbs = h0.dbs
      ∧ h1.objs[t]? = some { m0 with prevSnapshot := some h0.objs.length,
                                     requestPool := some (h0.maps.length + 1) }
      ∧ h1.objs[h0.objs.length]?
          = some ⟨.nil, m0.committedHash, false, m0.requestPool, m0.prevSnapshot, m0.db⟩
      ∧ ∀ q, q ≠ t → q ≠ h0.objs.length → h1.objs[q]? = h0.objs[q]? := by
  have ht : t < h0.objs.length := by
    by_contra hcon
    rw [List.getElem?_eq_none (not_lt.mp hcon)] at hobj
    exact Option.noConfusion hobj
  have hnew : ∀ (l : List mpt) (x : mpt), (l ++ [x])[l.length]? = some x := by
    intro l x
    rw [List.getElem?_append_right (le_refl _)]
    simp
  refine ⟨⟨((h0.objs ++ [mpt.mk .nil m0.committedHash false (some h0.maps.length) none m0.db]).set
        h0.objs.length (mpt.mk .nil m0.committedHash false m0.requestPool m0.prevSnapshot m0.db)).set
        t (mpt.mk m0.root m0.committedHash m0.rootHashed (some (h0.maps.length + 1))
          (some h0.objs.length) m0.db),
      (h0.maps ++ [[]]) ++ [[]], h0.dbs⟩, ?_, ?_, ?_, ?_, ?_, ?_⟩
  · simp [mpt.GetSnapshot, hobj, newImmutable, Heap.makeMap, Heap.newObj, Heap.setObj, hnew]
  · simp
  · rfl
  · show (List.set _ t _)[t]? = _
    rw [List.getElem?_set_self (by simp; omega)]
  · show (List.set (List.set _ _ _) t _)[h0.objs.length]? = _
    rw [List.getElem?_set_ne (Nat.ne_of_lt ht), List.getElem?_set_self (by simp)]
  · intro q hq hqN
    show (List.set (List.set _ _ _) t _)[q]? = _
    rw [List.getElem?_set_ne (Ne.symm hq), List.getElem?_set_ne (Ne.symm hqN)]
    by_cases hlt : q < h0.objs.length
    · rw [List.getElem?_append_left hlt]
    · rw [List.getElem?_eq_none (by simp; omega), List.getElem?_eq_none (by omega)]

/-- `Set` and `Delete` on a trie whose pool is allocated complete and write
nothing but the map behind the trie's own pool reference. -/
theorem applyMutations_frame (t tp : Nat) (T : mpt) (hT : T.requestPool = some tp) :
    ∀ (ops : List Mutation) (h : Heap), h.objs[t]? = some T →
      ∃ h2 : Heap, applyMutations t h ops = .ok h2 ∧ h2.objs = h.objs ∧ h2.dbs = h.dbs
        ∧ ∀ r, r ≠ tp → h2.maps[r]? = h.maps[r]? := by
  intro ops
  induction ops with
  | nil => intro h _; exact ⟨h, rfl, rfl, rfl, fun _ _ => rfl⟩
  | cons op rest ih =>
    intro h hobj
    have hw : ∀ k v, ∃ h2 : Heap, applyMutations t (h.writeMap tp k v) rest = .ok h2
        ∧ h2.objs = h.objs ∧ h2.dbs = h.dbs ∧ ∀ r, r ≠ tp → h2.maps[r]? = h.maps[r]? := by
      intro k v
      obtain ⟨h2, e, ho, hd, hm⟩ := ih (h.writeMap tp k v) hobj
      refine ⟨h2, e, ho, hd, fun r hr => ?_⟩
      rw [hm r hr]
      exact List.getElem?_set_ne (Ne.symm hr)
    cases op with
    | set k v =>
      cases k with
      | none => simpa [applyMutations, mpt.Set] using ih h hobj
      | some kb =>
        cases v with
        | none => simpa [applyMutations, mpt.Set] using ih h hobj
        | some vb => simpa [applyMutations, mpt.Set, hobj, hT] using hw _ _
    | delete k => simpa [applyMutations, mpt.Delete, hobj, hT] using hw _ _

/-- The loop of `mergeSnapshot` reads the same from two heaps that agree on the
objects and on the pools of every object but `t`, as long as it does not pass
through `t`. -/
theorem mergeLoop_frame (h1 h2 : Heap) (t : Nat) (hobjs : h2.objs = h1.objs)
    (hpool : ∀ (q : Nat) (m : mpt), q ≠ t → h1.objs[q]? = some m → h2.pool m.requestPool = h1.pool m.requestPool)
    (hprev : ∀ (q : Nat) (m : mpt), q ≠ t → h1.objs[q]? = some m → m.prevSnapshot ≠ some t) :
    ∀ (g : Nat) (cur : Option Nat) (acc : Pool) (ch : Bytes), cur ≠ some t →
      mergeLoop h2 g cur acc ch = mergeLoop h1 g cur acc ch := by
  intro g
  induction g with
  | zero => intro cur acc ch _; cases cur <;> rfl
  | succ g ih =>
    intro cur acc ch hcur
    cases cur with
    | none => rfl
    | some p =>
      have hp : p ≠ t := fun e => hcur (by rw [e])
      simp only [mergeLoop, hobjs]
      cases hm : h1.objs[p]? with
      | none => rfl
      | some m =>
        simp only []
        rw [hpool p m hp hm]
        exact ih _ _ _ (hprev p m hp hm)

/-- `Get` on `s` answers the same on two heaps that agree on the objects, on the
stores and on the pool of `s`. -/
theorem Get_frame (c : Codec) (fuel : Nat) (h1 h2 : Heap) (s : Nat) (k : Bytes)
    (hobjs : h2.objs = h1.objs) (hdbs : h2.dbs = h1.dbs)
    (hpool : ∀ m, h1.objs[s]? = some m → h2.pool m.requestPool = h1.pool m.requestPool) :
    (mpt.Get c fuel h2 s k).map Prod.snd = (mpt.Get c fuel h1 s k).map Prod.snd := by
  simp only [mpt.Get, hobjs]
  cases hm : h1.objs[s]? with
  | none => rfl
  | some m =>
    simp only []
    rw [hpool m hm]
    have hst : h2.store m.db = h1.store m.db := by
      cases hdb : m.db <;> simp [Heap.store, hdbs]
    rw [hst]
    cases (h1.pool m.requestPool).find (bytesToNibbles k) with
    | some v => cases v <;> rfl
    | none =>
      simp only []
      cases mpt.get c (h1.store m.db) fuel m.root (bytesToNibbles k) with
      | error e => rfl
      | ok r =>
        obtain ⟨root, value, err⟩ := r
        cases err with
        | some e => rfl
        | none => cases value <;> rfl

/-- C10: for a live trie `t` (no snapshot chain passes through it) on a heap
whose pool references are allocated, `GetSnapshot()` returns a handle `s` such
that every later sequence of `Set` and `Delete` calls on `t` completes and
leaves unchanged every trie object (so the committed hash and the chain pointer
of `s`), the stores, the pool of `s` and of every other object but `t`, the
merged pool and oldest committed hash of the chain of `s`, and the answer of
`s.Get(k)` for every `k`. In particular after `Set("a","1")`,
`S1 = GetSnapshot()`, `Set("a","2")`: `S1.Get("a") = "1"` and `T.Get("a") = "2"`. -/
theorem snapshot_isolated_from_live_mutations (c : Codec) (fuel : Nat) (h0 : Heap) (t : Nat)
    (m0 : mpt) (hobj : h0.objs[t]? = some m0)
    (hwf : ∀ (q : Nat) (m : mpt) (r : Nat), h0.objs[q]? = some m → m.requestPool = some r → r < h0.maps.length)
    (hlive : ∀ (q : Nat) (m : mpt), h0.objs[q]? = some m → m.prevSnapshot ≠ some t) :
    (∃ (h1 : Heap) (s : Nat), mpt.GetSnapshot h0 t = .ok (h1, s) ∧
      ∀ ops : List Mutation, ∃ h2 : Heap, applyMutations t h1 ops = .ok h2
        ∧ h2.objs = h1.objs
        ∧ h2.dbs = h1.dbs
        ∧ (∀ (q : Nat) (m : mpt), q ≠ t → h1.objs[q]? = some m → h2.pool m.requestPool = h1.pool m.requestPool)
        ∧ (∀ g, mpt.mergeSnapshot g h2 s = mpt.mergeSnapshot g h1 s)
        ∧ (∀ k, (mpt.Get c fuel h2 s k).map Prod.snd = (mpt.Get c fuel h1 s k).map Prod.snd))
    ∧ (∃ ha hb hc : Heap,
        mpt.Set (newMpt ⟨[], [], []⟩ none []).1 0 (some [97]) (some [49]) = .ok (ha, none)
        ∧ mpt.GetSnapshot ha 0 = .ok (hb, 1)
        ∧ mpt.Set hb 0 (some [97]) (some [50]) = .ok (hc, none)
        ∧ mpt.Get c fuel hc 1 [97] = .ok (hc, .ok [49])
        ∧ mpt.Get c fuel hc 0 [97] = .ok (hc, .ok [50])) := by
  refine ⟨?_, ⟨_, _, _, rfl, rfl, rfl, rfl, rfl⟩⟩
  obtain ⟨h1, hsnap, hmaps, hdbs, hT, hS, hrest⟩ := GetSnapshot_heap h0 t m0 hobj
  have ht : t < h0.objs.length := by
    by_contra hcon
    rw [List.getElem?_eq_none (not_lt.mp hcon)] at hobj
    exact Option.noConfusion hobj
  have hst : h0.objs.length ≠ t := Ne.symm (Nat.ne_of_lt ht)
  -- pool references and chain pointers of the objects of `h1` other than `t`
  have hobj1 : ∀ (q : Nat) (m : mpt), q ≠ t → h1.objs[q]? = some m →
      (∀ r, m.requestPool = some r → r < h0.maps.length) ∧ m.prevSnapshot ≠ some t := by
    intro q m hq hm
    by_cases hqN : q = h0.objs.length
    · rw [hqN, hS] at hm
      cases hm
      exact ⟨fun r hr => hwf t m0 r hobj hr, hlive t m0 hobj⟩
    · rw [hrest q hq hqN] at hm
      exact ⟨fun r hr => hwf q m r hm hr, hlive q m hm⟩
  refine ⟨h1, h0.objs.length, hsnap, fun ops => ?_⟩
  obtain ⟨h2, hrun, ho, hd, hm⟩ := applyMutations_frame t (h0.maps.length + 1) _ rfl ops h1 hT
  have hpool : ∀ (q : Nat) (m : mpt), q ≠ t → h1.objs[q]? = some m →
      h2.pool m.requestPool = h1.pool m.requestPool := by
    intro q m hq hqm
    cases hr : m.requestPool with
    | none => rfl
    | some r =>
      have hlt := (hobj1 q m hq hqm).1 r hr
      simp only [Heap.pool, List.getD_eq_getElem?_getD]
      rw [hm r (by omega)]
  refine ⟨h2, hrun, ho, hd, hpool, fun g => ?_, fun k => ?_⟩
  · exact mergeLoop_frame h1 h2 t ho hpool (fun q m hq hqm => (hobj1 q m hq hqm).2) g _ _ _
      (fun e => hst (Option.some.inj e))
  · exact Get_frame c fuel h1 h2 _ k ho hd (fun m hm => hpool _ m hst hm)

/-- C10 at the trie holding `("a","1")` in its pool, as left by `Set("a","1")` on
a fresh trie. -/
theorem snapshot_isolated_from_live_mutations_witness :
    (∃ (h1 : Heap) (s : Nat),
      mpt.GetSnapshot ⟨[mpt.mk (.hash []) [] false (some 0) none none],
          [[([6, 1], some [49])]], []⟩ 0 = .ok (h1, s) ∧
      ∀ ops : List Mutation, ∃ h2 : Heap, applyMutations 0 h1 ops = .ok h2
        ∧ h2.objs = h1.objs
        ∧ h2.dbs = h1.dbs
        ∧ (∀ (q : Nat) (m : mpt), q ≠ 0 → h1.objs[q]? = some m →
            h2.pool m.requestPool = h1.pool m.requestPool)
        ∧ (∀ g, mpt.mergeSnapshot g h2 s = mpt.mergeSnapshot g h1 s)
        ∧ (∀ k, (mpt.Get ⟨fun _ => node.nil, fun _ => [], fun b => b⟩ 5 h2 s k).map Prod.snd
              = (mpt.Get ⟨fun _ => node.nil, fun _ => [], fun b => b⟩ 5 h1 s k).map Prod.snd))
    ∧ (∃ ha hb hc : Heap,
        mpt.Set (newMpt ⟨[], [], []⟩ none []).1 0 (some [97]) (some [49]) = .ok (ha, none)
        ∧ mpt.GetSnapshot ha 0 = .ok (hb, 1)
        ∧ mpt.Set hb 0 (some [97]) (some [50]) = .ok (hc, none)
        ∧ mpt.Get ⟨fun _ => node.nil, fun _ => [], fun b => b⟩ 5 hc 1 [97] = .ok (hc, .ok [49])
        ∧ mpt.Get ⟨fun _ => node.nil, fun _ => [], fun b => b⟩ 5 hc 0 [97] = .ok (hc, .ok [50])) :=
  snapshot_isolated_from_live_mutations ⟨fun _ => node.nil, fun _ => [], fun b => b⟩ 5
    ⟨[mpt.mk (.hash []) [] false (some 0) none none], [[([6, 1], some [49])]], []⟩ 0
    (mpt.mk (.hash []) [] false (some 0) none none) rfl
    (by
      intro q m r hq hr
      cases q with
      | zero =>
        cases hq
        cases hr
        decide
      | succ n => simp at hq)
    (by
      intro q m hq
      cases q with
      | zero =>
        cases hq
        simp
      | succ n => simp at hq)

/-! ## Snapshot chain, reset, proof -/

/-- C11: after `Set("a","1")`, `S1 = GetSnapshot()`, `S2 = GetSnapshot()` on a
fresh trie, the chain of `S2` holds `("a","1")` in the pool of the older `S1` and
the own pool of `S2` has no entry for `"a"`, yet `S2.Get("a")` does not return
`"1"`: `Get` reads the own pool only, walks the root, which `newImmutable` left
nil, and calls `Bytes()` on the nil value, a runtime failure. -/
theorem Get_on_snapshot_skips_older_pools (c : Codec) (f g : Nat) :
    ∃ h1 h2 h3 : Heap,
      mpt.Set (newMpt ⟨[], [], [[]]⟩ (some 0) []).1 0 (some [97]) (some [49]) = .ok (h1, none)
      ∧ mpt.GetSnapshot h1 0 = .ok (h2, 1)
      ∧ mpt.GetSnapshot h2 0 = .ok (h3, 2)
      ∧ h3.objs[2]? = some (mpt.mk .nil [] false (some 2) (some 1) (some 0))
      ∧ h3.objs[1]? = some (mpt.mk .nil [] false (some 0) none (some 0))
      ∧ (h3.pool (some 2)).find (bytesToNibbles [97]) = none
      ∧ (h3.pool (some 0)).find (bytesToNibbles [97]) = some (some [49])
      ∧ mpt.mergeSnapshot (f + 3) h3 2 = .ok ([(bytesToNibbles [97], some [49])], [])
      ∧ mpt.Get c (g + 1) h3 2 [97] = .error .nilDereference :=
  ⟨⟨[mpt.mk (.hash []) [] false (some 0) none (some 0)], [[([6, 1], some [49])]], [[]]⟩,
   ⟨[mpt.mk (.hash []) [] false (some 2) (some 1) (some 0),
     mpt.mk .nil [] false (some 0) none (some 0)],
    [[([6, 1], some [49])], [], []], [[]]⟩,
   ⟨[mpt.mk (.hash []) [] false (some 4) (some 2) (some 0),
     mpt.mk .nil [] false (some 0) none (some 0),
     mpt.mk .nil [] false (some 2) (some 1) (some 0)],
    [[([6, 1], some [49])], [], [], [], []], [[]]⟩,
   rfl, rfl, rfl, rfl, rfl, rfl, rfl, rfl, rfl⟩

/-- C13: with the chain `S2 → S1` where `S1` holds `("a","1")` and the younger
`S2` holds the tombstone of `"a"`, the merged pool of `S2` maps `"a"` to the
tombstone, but `Reset(S2)` leaves a pool that maps `"a"` to `"1"`: `Reset` tests
`requestPool[k] == nil`, which is also true for a tombstone, where
`mergeSnapshot` tests the presence of the key. -/
theorem Reset_overwrites_tombstone (f : Nat) :
    ∃ h1 h2 h3 h4 h6 : Heap,
      mpt.Set (newMpt ⟨[], [], [[]]⟩ (some 0) []).1 0 (some [97]) (some [49]) = .ok (h1, none)
      ∧ mpt.GetSnapshot h1 0 = .ok (h2, 1)
      ∧ mpt.Delete h2 0 [97] = .ok (h3, none)
      ∧ mpt.GetSnapshot h3 0 = .ok (h4, 2)
      ∧ mpt.mergeSnapshot (f + 3) (newMpt h4 (some 0) []).1 2
          = .ok ([(bytesToNibbles [97], none)], [])
      ∧ mpt.Reset (f + 3) (newMpt h4 (some 0) []).1 3 (some 2) = .ok (h6, none)
      ∧ h6.objs[3]? = some (mpt.mk (.hash []) [] false (some 6) none (some 0))
      ∧ h6.pool (some 6) = [(bytesToNibbles [97], some [49])] :=
  ⟨⟨[mpt.mk (.hash []) [] false (some 0) none (some 0)], [[([6, 1], some [49])]], [[]]⟩,
   ⟨[mpt.mk (.hash []) [] false (some 2) (some 1) (some 0),
     mpt.mk .nil [] false (some 0) none (some 0)],
    [[([6, 1], some [49])], [], []], [[]]⟩,
   ⟨[mpt.mk (.hash []) [] false (some 2) (some 1) (some 0),
     mpt.mk .nil [] false (some 0) none (some 0)],
    [[([6, 1], some [49])], [], [([6, 1], none)]], [[]]⟩,
   ⟨[mpt.mk (.hash []) [] false (some 4) (some 2) (some 0),
     mpt.mk .nil [] false (some 0) none (some 0),
     mpt.mk .nil [] false (some 2) (some 1) (some 0)],
    [[([6, 1], some [49])], [], [([6, 1], none)], [], []], [[]]⟩,
   ⟨[mpt.mk (.hash []) [] false (some 4) (some 2) (some 0),
     mpt.mk .nil [] false (some 0) none (some 0),
     mpt.mk .nil [] false (some 2) (some 1) (some 0),
     mpt.mk (.hash []) [] false (some 6) none (some 0)],
    [[([6, 1], some [49])], [], [([6, 1], none)], [], [], [], [([6, 1], some [49])]], [[]]⟩,
   rfl, rfl, rfl, rfl, rfl, rfl, rfl, rfl⟩

/-- C15: on a fresh live trie over the empty hash `RootHash()` returns the empty
hash, but on the snapshot that `GetSnapshot()` returns for that trie (empty
committed hash, no pending entry anywhere in the chain) `RootHash()` does not
complete: `newImmutable` leaves the root nil, the empty committed hash does not
replace it, and `m.root.hash()` is a method call on the nil interface. -/
theorem RootHash_on_empty_snapshot_fails (c : Codec) (order : Pool → Pool) (f : Nat)
    (db : Option Nat) :
    ∃ h1 h2 : Heap,
      mpt.RootHash c order (f + 2) (newMpt ⟨[], [], [[]]⟩ db []).1 0 = .ok (h1, [])
      ∧ mpt.GetSnapshot (newMpt ⟨[], [], [[]]⟩ db []).1 0 = .ok (h2, 1)
      ∧ h2.objs[1]? = some (mpt.mk .nil [] false (some 0) none db)
      ∧ mpt.mergeSnapshot (f + 2) h2 1 = .ok ([], [])
      ∧ mpt.RootHash c order (f + 2) h2 1 = .error .nilDereference :=
  ⟨⟨[mpt.mk (.hash []) [] false (some 0) none db], [[]], [[]]⟩,
   ⟨[mpt.mk (.hash []) [] false (some 2) (some 1) db, mpt.mk .nil [] false (some 0) none db],
    [[], [], []], [[]]⟩,
   rfl, rfl, rfl, rfl, rfl⟩

/-- C18: on the trie holding `("do","verb")` and `("dog","puppy")`, materialised
by `RootHash()` into extension, branch and leaf, `Proof("dog")` and
`Proof("do")` do not complete (an index failure), and on the trie holding
`("do","verb")` alone `Proof("do")` returns the empty list: `addProof` assigns
the slice it makes to its own parameter, so the buffer of `proof` stays nil, the
second `addProof` on the way up indexes it, and the branch case reads `k[0]` of
the exhausted key. -/
theorem Proof_returns_no_serialisation (c : Codec) (hashedValue : node → Option Bytes)
    (f : Nat) :
    ∃ h1 h2 h3 h4 : Heap, ∃ d1 d2 : Bytes,
      mpt.Set (newMpt ⟨[], [], [[]]⟩ (some 0) []).1 0 (some [100, 111]) (some [118, 101, 114, 98])
          = .ok (h1, none)
      ∧ mpt.RootHash c (fun p => p) (f + 3) h1 0 = .ok (h2, d1)
      ∧ h2.objs[0]? = some (mpt.mk (.leaf [6, 4, 6, 15] (some [118, 101, 114, 98])) [] true
          (some 0) none (some 0))
      ∧ mpt.Proof c hashedValue (f + 3) h2 0 [100, 111] = .ok []
      ∧ mpt.Set h1 0 (some [100, 111, 103]) (some [112, 117, 112, 112, 121]) = .ok (h3, none)
      ∧ mpt.RootHash c (fun p => p) (f + 3) h3 0 = .ok (h4, d2)
      ∧ h4.objs[0]? = some (mpt.mk (.extension [6, 4, 6, 15] (.branch
            (emptyNibbles.set 6 (.leaf [7] (some [112, 117, 112, 112, 121])))
            (some [118, 101, 114, 98]))) [] true (some 0) none (some 0))
      ∧ mpt.Proof c hashedValue (f + 3) h4 0 [100, 111, 103] = .error .indexOutOfRange
      ∧ mpt.Proof c hashedValue (f + 3) h4 0 [100, 111] = .error .indexOutOfRange :=
  ⟨⟨[mpt.mk (.hash []) [] false (some 0) none (some 0)],
    [[([6, 4, 6, 15], some [118, 101, 114, 98])]], [[]]⟩,
   ⟨[mpt.mk (.leaf [6, 4, 6, 15] (some [118, 101, 114, 98])) [] true (some 0) none (some 0)],
    [[([6, 4, 6, 15], some [118, 101, 114, 98])]], [[]]⟩,
   ⟨[mpt.mk (.hash []) [] false (some 0) none (some 0)],
    [[([6, 4, 6, 15, 6, 7], some [112, 117, 112, 112, 121]),
      ([6, 4, 6, 15], some [118, 101, 114, 98])]], [[]]⟩,
   ⟨[mpt.mk (.extension [6, 4, 6, 15] (.branch
        (emptyNibbles.set 6 (.leaf [7] (some [112, 117, 112, 112, 121])))
        (some [118, 101, 114, 98]))) [] true (some 0) none (some 0)],
    [[([6, 4, 6, 15, 6, 7], some [112, 117, 112, 112, 121]),
      ([6, 4, 6, 15], some [118, 101, 114, 98])]], [[]]⟩,
   c.keccak (c.serialize (.leaf [6, 4, 6, 15] (some [118, 101, 114, 98]))),
   c.keccak (c.serialize (.extension [6, 4, 6, 15] (.branch
        (emptyNibbles.set 6 (.leaf [7] (some [112, 117, 112, 112, 121])))
        (some [118, 101, 114, 98])))),
   rfl, rfl, rfl, rfl, rfl, rfl, rfl, rfl, rfl⟩

/-- C19: `Set` with a nil key or a nil value returns the nil error (and leaves
the heap as it is), and `Delete` with a nil key returns the nil error and writes
a tombstone under the empty key into the pool: no call is rejected. -/
theorem nil_arguments_are_not_rejected (h : Heap) (p : Nat) (k v : Option Bytes) :
    mpt.Set h p none v = .ok (h, none)
      ∧ mpt.Set h p k none = .ok (h, none)
      ∧ mpt.Delete (newMpt ⟨[], [], []⟩ none []).1 0 []
          = .ok (⟨[mpt.mk (.hash []) [] false (some 0) none none], [[([], none)]], []⟩, none) := by
  refine ⟨rfl, ?_, rfl⟩
  cases k <;> rfl

/-! ## Nibble expansion -/

/-- C20: for a byte string `k` (every element below 256), `bytesToNibbles(k)` has
length `2 * len(k)`; for every `i < len(k)` its element `2i` is the high four
bits of `k[i]` and its element `2i+1` the low four bits, both lie in `[0,15]`
and `k[i] = 16 * nib[2i] + nib[2i+1]`; every element of the result lies in
`[0,15]`; and the expansion is injective. -/
theorem bytesToNibbles_spec (k : Bytes) (hk : ∀ b ∈ k, b < 256) :
    (bytesToNibbles k).length = 2 * k.length
      ∧ (∀ (i b : Nat), k[i]? = some b →
          ∃ hi lo : Nat, (bytesToNibbles k)[2 * i]? = some hi
            ∧ (bytesToNibbles k)[2 * i + 1]? = some lo
            ∧ hi = b / 16 ∧ lo = b % 16 ∧ hi < 16 ∧ lo < 16 ∧ b = 16 * hi + lo)
      ∧ (∀ x ∈ bytesToNibbles k, x < 16)
      ∧ (∀ k2 : Bytes, (∀ b ∈ k2, b < 256) → bytesToNibbles k2 = bytesToNibbles k → k2 = k) := by
  refine ⟨?_, ?_, ?_, ?_⟩
  · clear hk
    induction k with
    | nil => rfl
    | cons v rest ih => simp [bytesToNibbles, ih]; omega
  · induction k with
    | nil => intro i b h; simp at h
    | cons v rest ih =>
      intro i b h
      cases i with
      | zero =>
        simp at h
        subst h
        have hv : v < 256 := hk v (by simp)
        refine ⟨v / 16, v % 16, ?_, ?_, rfl, rfl, ?_, ?_, ?_⟩
        · have : v / 16 % 16 = v / 16 := Nat.mod_eq_of_lt (by omega)
          simp [bytesToNibbles, this]
        · simp [bytesToNibbles]
        · omega
        · omega
        · omega
      | succ j =>
        simp at h
        obtain ⟨hi, lo, h1, h2, rest'⟩ := ih (fun b hb => hk b (by simp [hb])) j b h
        refine ⟨hi, lo, ?_, ?_, rest'⟩
        · have e : 2 * (j + 1) = 2 * j + 1 + 1 := by omega
          rw [e]
          simpa [bytesToNibbles] using h1
        · have e : 2 * (j + 1) + 1 = (2 * j + 1) + 1 + 1 := by omega
          rw [e]
          simpa [bytesToNibbles] using h2
  · clear hk
    induction k with
    | nil => intro x hx; simp [bytesToNibbles] at hx
    | cons v rest ih =>
      intro x hx
      simp only [bytesToNibbles, List.mem_cons] at hx
      rcases hx with h | h | h
      · rw [h]; exact Nat.mod_lt _ (by decide)
      · rw [h]; exact Nat.mod_lt _ (by decide)
      · exact ih x h
  · induction k with
    | nil =>
      intro k2 _ h
      cases k2 with
      | nil => rfl
      | cons a as => simp [bytesToNibbles] at h
    | cons v rest ih =>
      intro k2 hk2 h
      cases k2 with
      | nil => simp [bytesToNibbles] at h
      | cons a as =>
        simp only [bytesToNibbles, List.cons.injEq] at h
        obtain ⟨h1, h2, h3⟩ := h
        have ha : a < 256 := hk2 a (by simp)
        have hv : v < 256 := hk v (by simp)
        have hav : a = v := by omega
        rw [hav, ih (fun b hb => hk b (by simp [hb])) as (fun b hb => hk2 b (by simp [hb])) h3]

/-- C20 at the key `"do"`: four nibbles `[6, 4, 6, 15]`. -/
theorem bytesToNibbles_spec_witness :
    (bytesToNibbles [100, 111]).length = 2 * [100, 111].length
      ∧ (∀ (i b : Nat), [100, 111][i]? = some b →
          ∃ hi lo : Nat, (bytesToNibbles [100, 111])[2 * i]? = some hi
            ∧ (bytesToNibbles [100, 111])[2 * i + 1]? = some lo
            ∧ hi = b / 16 ∧ lo = b % 16 ∧ hi < 16 ∧ lo < 16 ∧ b = 16 * hi + lo)
      ∧ (∀ x ∈ bytesToNibbles [100, 111], x < 16)
      ∧ (∀ k2 : Bytes, (∀ b ∈ k2, b < 256) →
          bytesToNibbles k2 = bytesToNibbles [100, 111] → k2 = [100, 111]) :=
  bytesToNibbles_spec [100, 111] (by decide)

/-- A map reference reads the same after two empty maps were allocated. -/
theorem pool_append_empty (maps : List Pool) (r : Option Nat) :
    Heap.pool ⟨[], maps ++ [[], []], []⟩ r = Heap.pool ⟨[], maps, []⟩ r := by
  cases r with
  | none => rfl
  | some i =>
    simp only [Heap.pool, List.getD_eq_getElem?_getD]
    by_cases hlt : i < maps.length
    · rw [List.getElem?_append_left hlt]
    · rw [List.getElem?_append_right (not_lt.mp hlt), List.getElem?_eq_none (not_lt.mp hlt)]
      rcases Nat.lt_or_ge (i - maps.length) 2 with h2 | h2
      · interval_cases (i - maps.length) <;> rfl
      · rw [List.getElem?_eq_none (by simpa using h2)]

/-- C14: `GetSnapshot()` on a live trie with pool `P`, previous snapshot `Q`,
committed hash `H` and store `D` returns a new handle `S` whose pool is the map
`P` (same reference, same contents), whose previous snapshot is `Q`, whose
committed hash is `H` and whose store is `D`; afterwards the previous snapshot
of the trie is `S`, its pool is a newly allocated empty map, and its root and
committed hash are unchanged. -/
theorem GetSnapshot_handle (h0 : Heap) (t : Nat) (m0 : mpt) (hobj : h0.objs[t]? = some m0) :
    ∃ (h1 : Heap) (s : Nat) (S T : mpt) (r : Nat),
      mpt.GetSnapshot h0 t = .ok (h1, s)
      ∧ h0.objs[s]? = none ∧ s ≠ t
      ∧ h1.objs[s]? = some S
      ∧ S.requestPool = m0.requestPool
      ∧ h1.pool S.requestPool = h0.pool m0.requestPool
      ∧ S.prevSnapshot = m0.prevSnapshot
      ∧ S.committedHash = m0.committedHash
      ∧ S.db = m0.db ∧ h1.dbs = h0.dbs
      ∧ h1.objs[t]? = some T
      ∧ T.prevSnapshot = some s
      ∧ T.requestPool = some r ∧ h0.maps.length ≤ r ∧ r < h1.maps.length
      ∧ h1.pool (some r) = []
      ∧ T.root = m0.root ∧ T.committedHash = m0.committedHash := by
  obtain ⟨h1, hsnap, hmaps, hdbs, hT, hS, _⟩ := GetSnapshot_heap h0 t m0 hobj
  have ht : t < h0.objs.length := by
    by_contra hcon
    rw [List.getElem?_eq_none (not_lt.mp hcon)] at hobj
    exact Option.noConfusion hobj
  refine ⟨h1, h0.objs.length, _, _, h0.maps.length + 1, hsnap, List.getElem?_eq_none (le_refl _),
    Ne.symm (Nat.ne_of_lt ht), hS, rfl, ?_, rfl, rfl, rfl, hdbs, hT, rfl, rfl, by omega, ?_, ?_,
    rfl, rfl⟩
  · have e := pool_append_empty h0.maps m0.requestPool
    simp only [Heap.pool] at e ⊢
    rw [hmaps]
    exact e
  · rw [hmaps]; simp
  · simp only [Heap.pool, hmaps, List.getD_eq_getElem?_getD]
    rw [List.getElem?_append_right (by omega)]
    simp

/-- C14 at the trie holding `("a","1")` in its pool. -/
theorem GetSnapshot_handle_witness :
    ∃ (h1 : Heap) (s : Nat) (S T : mpt) (r : Nat),
      mpt.GetSnapshot ⟨[mpt.mk (.hash []) [] false (some 0) none none],
          [[([6, 1], some [49])]], []⟩ 0 = .ok (h1, s)
      ∧ (Heap.mk [mpt.mk (.hash []) [] false (some 0) none none]
          [[([6, 1], some [49])]] []).objs[s]? = none ∧ s ≠ 0
      ∧ h1.objs[s]? = some S
      ∧ S.requestPool = some 0
      ∧ h1.pool S.requestPool = [([6, 1], some [49])]
      ∧ S.prevSnapshot = none
      ∧ S.committedHash = []
      ∧ S.db = none ∧ h1.dbs = []
      ∧ h1.objs[0]? = some T
      ∧ T.prevSnapshot = some s
      ∧ T.requestPool = some r ∧ 1 ≤ r ∧ r < h1.maps.length
      ∧ h1.pool (some r) = []
      ∧ T.root = .hash [] ∧ T.committedHash = [] :=
  GetSnapshot_handle ⟨[mpt.mk (.hash []) [] false (some 0) none none],
    [[([6, 1], some [49])]], []⟩ 0 (mpt.mk (.hash []) [] false (some 0) none none) rfl

/-- An object written through a valid reference is read back. -/
theorem setObj_get (h : Heap) (p : Nat) (m x : mpt) (hobj : h.objs[p]? = some m) :
    (h.setObj p x).objs[p]? = some x := by
  have hp : p < h.objs.length := by
    by_contra hcon
    rw [List.getElem?_eq_none (not_lt.mp hcon)] at hobj
    exact Option.noConfusion hobj
  simp [Heap.setObj, List.getElem?_set_self hp]

/-- Allocating a map and writing a store keep the objects. -/
theorem objs_setStore_makeMap (h : Heap) (pool : Pool) (r : Option Nat) (s : Option Store) :
    ((h.makeMap pool).1.setStore r s).objs = h.objs := by
  cases r <;> cases s <;> rfl

/-- C17: whenever `Flush()` returns without error, the trie's pool is the nil map
(it holds no entry), its previous-snapshot pointer is nil, and its committed
hash is the hash of its root. -/
theorem Flush_clears_pool_and_commits_root (c : Codec) (order : Pool → Pool) (fuel : Nat)
    (h : Heap) (p : Nat) (h2 : Heap) (hflush : mpt.Flush c order fuel h p = .ok (h2, none)) :
    ∃ m2 : mpt, h2.objs[p]? = some m2
      ∧ m2.requestPool = none
      ∧ h2.pool m2.requestPool = []
      ∧ m2.prevSnapshot = none
      ∧ nodeHash c m2.root = .ok m2.committedHash := by
  unfold mpt.Flush at hflush
  cases hobj : h.objs[p]? with
  | none => simp [hobj] at hflush
  | some m =>
    simp only [hobj] at hflush
    cases hmerge : mpt.mergeSnapshot fuel h p with
    | error e => simp [hmerge] at hflush
    | ok r =>
      obtain ⟨pool, last⟩ := r
      simp only [hmerge] at hflush
      by_cases hlen : pool.length ≠ 0
      · rw [if_pos hlen] at hflush
        split at hflush
        · exact Except.noConfusion hflush
        · rename_i m1 hm1
          split at hflush
          · exact Except.noConfusion hflush
          · simp at hflush
          · rename_i db hcommit
            split at hflush
            · exact Except.noConfusion hflush
            · rename_i d hd
              simp only [Except.ok.injEq, Prod.mk.injEq, and_true] at hflush
              subst hflush
              have hobj2 : ((h.makeMap pool).1.setStore m1.db db).objs[p]? = some m := by
                rw [objs_setStore_makeMap]; exact hobj
              exact ⟨_, setObj_get _ p m _ hobj2, rfl, rfl, rfl, hd⟩
      · rw [if_neg hlen] at hflush
        simp only [Except.ok.injEq, Prod.mk.injEq, and_true] at hflush
        subst hflush
        have hobj2 : (h.makeMap pool).1.objs[p]? = some m := hobj
        exact ⟨_, setObj_get _ p m _ hobj2, rfl, rfl, rfl, rfl⟩

/-- C17 at the fresh trie whose pool holds `("a","1")`, with the identity as range
order and a codec whose serialisations are empty. -/
theorem Flush_clears_pool_and_commits_root_witness :
    ∃ m2 : mpt,
      (Heap.mk [mpt.mk (.leaf [6, 1] (some [49])) [] true none none (some 0)]
          [[([6, 1], some [49])], [([6, 1], some [49])]] [[]]).objs[0]? = some m2
      ∧ m2.requestPool = none
      ∧ (Heap.mk [mpt.mk (.leaf [6, 1] (some [49])) [] true none none (some 0)]
          [[([6, 1], some [49])], [([6, 1], some [49])]] [[]]).pool m2.requestPool = []
      ∧ m2.prevSnapshot = none
      ∧ nodeHash ⟨fun _ => node.nil, fun _ => [], fun b => b⟩ m2.root = .ok m2.committedHash :=
  Flush_clears_pool_and_commits_root ⟨fun _ => node.nil, fun _ => [], fun b => b⟩ (fun p => p) 2
    ⟨[mpt.mk (.hash []) [] false (some 0) none (some 0)], [[([6, 1], some [49])]], [[]]⟩ 0
    ⟨[mpt.mk (.leaf [6, 1] (some [49])) [] true none none (some 0)],
      [[([6, 1], some [49])], [([6, 1], some [49])]], [[]]⟩ rfl

/-- Reading a map at another key than the one just written. -/
theorem Pool.find_store_ne (p : Pool) (k k2 : List Nat) (v : trieValue) (hne : k2 ≠ k) :
    (p.store k v).find k2 = p.find k2 := by
  have hbeq : (k2 == k) = false := by simpa using hne
  simp only [Pool.find, Pool.store, List.lookup, hbeq]
  induction p with
  | nil => rfl
  | cons e rest ih =>
    obtain ⟨a, b⟩ := e
    by_cases ha : a = k
    · subst ha
      simp only [List.filter, List.lookup, hbeq, ne_eq, not_true_eq_false, decide_False]
      exact ih
    · by_cases h2 : k2 = a
      · subst h2
        simp [List.filter, List.lookup, ha]
      · have hb2 : (k2 == a) = false := by simpa using h2
        simp only [List.filter, List.lookup, hb2, ne_eq, ha, not_false_eq_true, decide_True]
        exact ih

/-- The inner loop of `mergeSnapshot` keeps what the merged pool has and adds the
entries of the keys it does not have. -/
theorem mergeInto_find (pool acc : Pool) (k : List Nat) :
    (mergeInto acc pool).find k = (acc.find k).or (pool.find k) := by
  induction pool generalizing acc with
  | nil => simp [mergeInto, Pool.find, Option.or_none]
  | cons e rest ih =>
    obtain ⟨k1, v1⟩ := e
    by_cases hk : k = k1
    · subst hk
      cases hacc : acc.find k with
      | some w => simp [mergeInto, hacc, ih]
      | none =>
        simp only [mergeInto, hacc, ih, Pool.find_store, Option.or_some, Option.none_or]
        simp [Pool.find]
    · have hb : (k == k1) = false := by simpa using hk
      have hcons : Pool.find ((k1, v1) :: rest) k = Pool.find rest k := by
        simp [Pool.find, List.lookup, hb]
      cases hacc : acc.find k1 with
      | some w => simp only [mergeInto, hacc, ih, hcons]
      | none => simp only [mergeInto, hacc, ih, hcons, Pool.find_store_ne _ _ _ _ hk]

/-- The loop of `mergeSnapshot` along a chain: enough fuel gives the merged pool
under the shadowing rule and the committed hash of the last chain member. -/
theorem mergeLoop_chain (h : Heap) :
    ∀ (ms : List mpt) (fuel : Nat) (cur : Option Nat) (acc : Pool) (ch : Bytes),
      chainOf h cur ms → ms.length ≤ fuel →
      ∃ P : Pool, mergeLoop h fuel cur acc ch
          = .ok (P, (ms.getLast?.map (fun m => m.committedHash)).getD ch)
        ∧ ∀ k, P.find k
            = (acc.find k).or (shadowFind (ms.map (fun m => h.pool m.requestPool)) k) := by
  intro ms
  induction ms with
  | nil =>
    intro fuel cur acc ch hchain _
    simp only [chainOf] at hchain
    subst hchain
    refine ⟨acc, by cases fuel <;> rfl, fun k => ?_⟩
    simp [shadowFind, Option.or_none]
  | cons m ms ih =>
    intro fuel cur acc ch hchain hfuel
    obtain ⟨p, hcur, hobj, hrest⟩ := hchain
    subst hcur
    cases fuel with
    | zero => simp at hfuel
    | succ f =>
      obtain ⟨P, hP, hfind⟩ := ih f m.prevSnapshot (mergeInto acc (h.pool m.requestPool))
        m.committedHash hrest (by simpa using hfuel)
      refine ⟨P, ?_, fun k => ?_⟩
      · simp only [mergeLoop, hobj]
        rw [hP]
        cases ms with
        | nil => rfl
        | cons m1 rest =>
          cases hl : (m1 :: rest).getLast? with
          | none => simp at hl
          | some x => simp [List.getLast?_cons_cons, hl]
      · rw [hfind k, mergeInto_find, Option.or_assoc]
        congr 1
        simp only [shadowFind, List.map_cons, List.findSome?_cons]
        cases (h.pool m.requestPool).find k <;> rfl

/-- The shadowing rule finds a key exactly when some pool has it. -/
theorem shadowFind_isSome (pools : List Pool) (k : List Nat) :
    (∃ v, shadowFind pools k = some v) ↔ ∃ pool ∈ pools, ∃ v, pool.find k = some v := by
  induction pools with
  | nil => simp [shadowFind]
  | cons q rest ih =>
    simp only [shadowFind, List.findSome?_cons, List.mem_cons, exists_eq_or_imp] at ih ⊢
    cases hq : q.find k with
    | some w => simp
    | none => simpa using ih

/-- The shadowing rule yields the entry of the first pool that has the key. -/
theorem shadowFind_youngest (pools : List Pool) (k : List Nat) :
    ∀ (i : Nat) (pool : Pool) (v : trieValue), pools[i]? = some pool → pool.find k = some v →
      (∀ j, j < i → ∀ q, pools[j]? = some q → q.find k = none) → shadowFind pools k = some v := by
  induction pools with
  | nil => intro i pool v h; simp at h
  | cons q rest ih =>
    intro i pool v hi hv hyounger
    cases i with
    | zero =>
      simp at hi
      subst hi
      simp [shadowFind, List.findSome?_cons, hv]
    | succ n =>
      have hq : q.find k = none := hyounger 0 (Nat.succ_pos n) q (by simp)
      simp only [shadowFind, List.findSome?_cons, hq]
      exact ih n pool v (by simpa using hi) hv
        (fun j hj q2 hq2 => hyounger (j + 1) (Nat.succ_lt_succ hj) q2 (by simpa using hq2))

/-- C12: on a trie whose snapshot chain is `ms = m0, m1, …, mn` (itself first, the
oldest last), `mergeSnapshot` returns, with fuel for the length of the chain, a
pool `P` and a hash such that a key has an entry in `P` exactly when some pool
of the chain has one, `P` maps each key to the entry (value or tombstone) of the
youngest chain member whose pool has the key, and the hash is the committed
hash of `mn`. -/
theorem mergeSnapshot_shadowing (h : Heap) (p : Nat) (ms : List mpt) (fuel : Nat)
    (hchain : chainOf h (some p) ms) (hfuel : ms.length ≤ fuel) :
    ∃ (P : Pool) (committedHash : Bytes), mpt.mergeSnapshot fuel h p = .ok (P, committedHash)
      ∧ (∀ k, (∃ v, P.find k = some v)
            ↔ ∃ pool ∈ ms.map (fun m => h.pool m.requestPool), ∃ v, pool.find k = some v)
      ∧ (∀ (k : List Nat) (i : Nat) (pool : Pool) (v : trieValue),
            (ms.map (fun m => h.pool m.requestPool))[i]? = some pool → pool.find k = some v →
            (∀ j, j < i → ∀ q, (ms.map (fun m => h.pool m.requestPool))[j]? = some q →
              q.find k = none) →
            P.find k = some v)
      ∧ ms.getLast?.map (fun m => m.committedHash) = some committedHash := by
  obtain ⟨P, hP, hfind⟩ := mergeLoop_chain h ms fuel (some p) [] [] hchain hfuel
  have hfind2 : ∀ k, P.find k = shadowFind (ms.map (fun m => h.pool m.requestPool)) k := by
    intro k
    rw [hfind k]
    simp [Pool.find]
  refine ⟨P, _, hP, fun k => ?_, fun k i pool v hi hv hy => ?_, ?_⟩
  · rw [hfind2 k]
    exact shadowFind_isSome _ k
  · rw [hfind2 k]
    exact shadowFind_youngest _ k i pool v hi hv hy
  · cases ms with
    | nil => simp [chainOf] at hchain
    | cons m rest =>
      cases hl : (m :: rest).getLast? with
      | none => simp at hl
      | some x => simp

/-- C12 on the chain `S2 → S1` where `S1` holds `("a","1")` and `S2` holds nothing. -/
theorem mergeSnapshot_shadowing_witness :
    ∃ (P : Pool) (committedHash : Bytes),
      mpt.mergeSnapshot 2
          ⟨[mpt.mk (.hash []) [] false (some 4) (some 2) (some 0),
            mpt.mk .nil [] false (some 0) none (some 0),
            mpt.mk .nil [] false (some 2) (some 1) (some 0)],
           [[([6, 1], some [49])], [], [], [], []], [[]]⟩ 2 = .ok (P, committedHash)
      ∧ (∀ k, (∃ v, P.find k = some v)
            ↔ ∃ pool ∈ ([[], [([6, 1], some [49])]] : List Pool), ∃ v, pool.find k = some v)
      ∧ (∀ (k : List Nat) (i : Nat) (pool : Pool) (v : trieValue),
            ([[], [([6, 1], some [49])]] : List Pool)[i]? = some pool → pool.find k = some v →
            (∀ j, j < i → ∀ q, ([[], [([6, 1], some [49])]] : List Pool)[j]? = some q →
              q.find k = none) →
            P.find k = some v)
      ∧ some ([] : Bytes) = some committedHash :=
  mergeSnapshot_shadowing
    ⟨[mpt.mk (.hash []) [] false (some 4) (some 2) (some 0),
      mpt.mk .nil [] false (some 0) none (some 0),
      mpt.mk .nil [] false (some 2) (some 1) (some 0)],
     [[([6, 1], some [49])], [], [], [], []], [[]]⟩ 2
    [mpt.mk .nil [] false (some 2) (some 1) (some 0), mpt.mk .nil [] false (some 0) none (some 0)]
    2 ⟨2, rfl, rfl, 1, rfl, rfl, rfl⟩ (by decide)

/-! ## Flush: what reaches the store -/

/-- The effect of `db.Set(n.hash(), n.serialize())` on a store handle. -/
theorem commitNode_ok (c : Codec) (db db2 : Option Store) (n : node) (e : Option GoError)
    (h : commitNode c db n = .ok (db2, e)) :
    e = none ∧ storeOf db2 = (c.keccak (c.serialize n), c.serialize n) :: storeOf db := by
  cases db with
  | none => simp [commitNode] at h
  | some s =>
    simp only [commitNode, Store.put, Except.ok.injEq, Prod.mk.injEq] at h
    obtain ⟨h1, h2⟩ := h
    subst h1
    exact ⟨h2.symm, rfl⟩

/-- The loop over the children of a branch, for a visit of one child that only
adds well-keyed pairs and, when it reports no error, the pairs of the large
nodes under that child. -/
theorem commitChildren_spec (c : Codec)
    (commit : Option Store → node → Except Panic (Option Store × Option GoError))
    (hcommit : ∀ (db : Option Store) (x : node) (db2 : Option Store) (e : Option GoError),
      commit db x = .ok (db2, e) →
      ∃ added : Store, storeOf db2 = added ++ storeOf db
        ∧ (∀ y ∈ added, y.1 = c.keccak y.2)
        ∧ (e = none → ∀ N, Reach x N → materialised N = true →
            hashableSize ≤ (c.serialize N).length →
            (c.keccak (c.serialize N), c.serialize N) ∈ added)) :
    ∀ (l : List node) (db db2 : Option Store) (e : Option GoError),
      commitChildren commit db l = .ok (db2, e) →
      ∃ added : Store, storeOf db2 = added ++ storeOf db
        ∧ (∀ y ∈ added, y.1 = c.keccak y.2)
        ∧ (e = none → ∀ ch ∈ l, ∀ N, Reach ch N → materialised N = true →
            hashableSize ≤ (c.serialize N).length →
            (c.keccak (c.serialize N), c.serialize N) ∈ added) := by
  intro l
  induction l with
  | nil =>
    intro db db2 e h
    simp only [commitChildren, Except.ok.injEq, Prod.mk.injEq] at h
    obtain ⟨h1, _⟩ := h
    subst h1
    exact ⟨[], rfl, by simp, by simp⟩
  | cons v rest ih =>
    intro db db2 e h
    simp only [commitChildren] at h
    cases hv : commit db v with
    | error err => simp [hv] at h
    | ok r =>
      obtain ⟨db1, e1⟩ := r
      obtain ⟨a1, hs1, hk1, hq1⟩ := hcommit db v db1 e1 hv
      cases e1 with
      | some err =>
        simp only [hv, Except.ok.injEq, Prod.mk.injEq] at h
        obtain ⟨h1, h2⟩ := h
        subst h1
        subst h2
        exact ⟨a1, hs1, hk1, fun hcon => Option.noConfusion hcon⟩
      | none =>
        simp only [hv] at h
        obtain ⟨a2, hs2, hk2, hq2⟩ := ih db1 db2 e h
        refine ⟨a2 ++ a1, by rw [hs2, hs1, List.append_assoc], ?_, ?_⟩
        · intro y hy
          rcases List.mem_append.mp hy with h3 | h3
          · exact hk2 y h3
          · exact hk1 y h3
        · intro he ch hch N hr hm hl
          rcases List.mem_cons.mp hch with h3 | h3
          · subst h3
            exact List.mem_append_right _ (hq1 rfl N hr hm hl)
          · exact List.mem_append_left _ (hq2 he ch h3 N hr hm hl)

/-- `traversalCommit` only adds pairs `(keccak(b), b)` in front of the store and,
when it reports no error, it has added the pair of every materialised node
under `n` whose serialisation has at least `hashableSize` bytes. -/
theorem traversalCommit_spec (c : Codec) :
    ∀ (fuel : Nat) (db : Option Store) (n : node) (db2 : Option Store) (e : Option GoError),
      traversalCommit c fuel db n = .ok (db2, e) →
      ∃ added : Store, storeOf db2 = added ++ storeOf db
        ∧ (∀ y ∈ added, y.1 = c.keccak y.2)
        ∧ (e = none → ∀ N, Reach n N → materialised N = true →
            hashableSize ≤ (c.serialize N).length →
            (c.keccak (c.serialize N), c.serialize N) ∈ added) := by
  intro fuel
  induction fuel with
  | zero => intro db n db2 e h; simp [traversalCommit] at h
  | succ fuel ih =>
    intro db n db2 e h
    cases n with
    | nil =>
      simp only [traversalCommit, Except.ok.injEq, Prod.mk.injEq] at h
      obtain ⟨h1, _⟩ := h
      subst h1
      refine ⟨[], rfl, by simp, fun _ N hr hm _ => ?_⟩
      cases hr
      simp [materialised] at hm
    | hash d =>
      simp only [traversalCommit, Except.ok.injEq, Prod.mk.injEq] at h
      obtain ⟨h1, _⟩ := h
      subst h1
      refine ⟨[], rfl, by simp, fun _ N hr hm _ => ?_⟩
      cases hr
      simp [materialised] at hm
    | leaf ke v =>
      simp only [traversalCommit] at h
      by_cases hlen : (c.serialize (.leaf ke v)).length < hashableSize
      · rw [if_pos hlen] at h
        simp only [Except.ok.injEq, Prod.mk.injEq] at h
        obtain ⟨h1, _⟩ := h
        subst h1
        refine ⟨[], rfl, by simp, fun _ N hr _ hl => ?_⟩
        cases hr
        omega
      · rw [if_neg hlen] at h
        obtain ⟨_, hs⟩ := commitNode_ok c db db2 _ e h
        refine ⟨[(c.keccak (c.serialize (.leaf ke v)), c.serialize (.leaf ke v))], hs, by simp,
          fun _ N hr _ _ => ?_⟩
        cases hr
        simp
    | extension s nx =>
      simp only [traversalCommit] at h
      cases hnx : traversalCommit c fuel db nx with
      | error err => simp [hnx] at h
      | ok r =>
        obtain ⟨db1, e1⟩ := r
        obtain ⟨a1, hs1, hk1, hq1⟩ := ih db nx db1 e1 hnx
        cases e1 with
        | some err =>
          simp only [hnx, Except.ok.injEq, Prod.mk.injEq] at h
          obtain ⟨h1, h2⟩ := h
          subst h1
          subst h2
          exact ⟨a1, hs1, hk1, fun hcon => Option.noConfusion hcon⟩
        | none =>
          simp only [hnx] at h
          obtain ⟨_, hs⟩ := commitNode_ok c db1 db2 _ e h
          refine ⟨(c.keccak (c.serialize (.extension s nx)), c.serialize (.extension s nx)) :: a1,
            by rw [hs, hs1]; rfl, ?_, fun _ N hr hm hl => ?_⟩
          · intro y hy
            rcases List.mem_cons.mp hy with h3 | h3
            · rw [h3]
            · exact hk1 y h3
          · cases hr with
            | self => simp
            | next _ _ _ hr2 => exact List.mem_cons_of_mem _ (hq1 rfl N hr2 hm hl)
    | branch nibbles v =>
      simp only [traversalCommit] at h
      cases hch : commitChildren (traversalCommit c fuel) db nibbles with
      | error err => simp [hch] at h
      | ok r =>
        obtain ⟨db1, e1⟩ := r
        obtain ⟨a1, hs1, hk1, hq1⟩ :=
          commitChildren_spec c (traversalCommit c fuel) ih nibbles db db1 e1 hch
        cases e1 with
        | some err =>
          simp only [hch, Except.ok.injEq, Prod.mk.injEq] at h
          obtain ⟨h1, h2⟩ := h
          subst h1
          subst h2
          exact ⟨a1, hs1, hk1, fun hcon => Option.noConfusion hcon⟩
        | none =>
          simp only [hch] at h
          obtain ⟨_, hs⟩ := commitNode_ok c db1 db2 _ e h
          refine ⟨(c.keccak (c.serialize (.branch nibbles v)), c.serialize (.branch nibbles v))
              :: a1, by rw [hs, hs1]; rfl, ?_, fun _ N hr hm hl => ?_⟩
          · intro y hy
            rcases List.mem_cons.mp hy with h3 | h3
            · rw [h3]
            · exact hk1 y h3
          · cases hr with
            | self => simp
            | child _ _ ch _ hmem hr2 =>
              exact List.mem_cons_of_mem _ (hq1 rfl ch hmem N hr2 hm hl)

/-- The loop over the children leaves a nil store handle nil. -/
theorem commitChildren_nil_store
    (commit : Option Store → node → Except Panic (Option Store × Option GoError))
    (hcommit : ∀ (x : node) (db2 : Option Store) (e : Option GoError),
      commit none x = .ok (db2, e) → db2 = none) :
    ∀ (l : List node) (db2 : Option Store) (e : Option GoError),
      commitChildren commit none l = .ok (db2, e) → db2 = none := by
  intro l
  induction l with
  | nil =>
    intro db2 e h
    simp only [commitChildren, Except.ok.injEq, Prod.mk.injEq] at h
    exact h.1.symm
  | cons v rest ih =>
    intro db2 e h
    simp only [commitChildren] at h
    cases hv : commit none v with
    | error err => simp [hv] at h
    | ok r =>
      obtain ⟨db1, e1⟩ := r
      have h1 := hcommit v db1 e1 hv
      subst h1
      cases e1 with
      | some err =>
        simp only [hv, Except.ok.injEq, Prod.mk.injEq] at h
        exact h.1.symm
      | none =>
        simp only [hv] at h
        exact ih db2 e h

/-- `traversalCommit` leaves a nil store handle nil. -/
theorem traversalCommit_nil_store (c : Codec) :
    ∀ (fuel : Nat) (n : node) (db2 : Option Store) (e : Option GoError),
      traversalCommit c fuel none n = .ok (db2, e) → db2 = none := by
  intro fuel
  induction fuel with
  | zero => intro n db2 e h; simp [traversalCommit] at h
  | succ fuel ih =>
    intro n db2 e h
    cases n with
    | nil =>
      simp only [traversalCommit, Except.ok.injEq, Prod.mk.injEq] at h
      exact h.1.symm
    | hash d =>
      simp only [traversalCommit, Except.ok.injEq, Prod.mk.injEq] at h
      exact h.1.symm
    | leaf ke v =>
      simp only [traversalCommit] at h
      by_cases hlen : (c.serialize (.leaf ke v)).length < hashableSize
      · rw [if_pos hlen] at h
        simp only [Except.ok.injEq, Prod.mk.injEq] at h
        exact h.1.symm
      · rw [if_neg hlen] at h
        simp [commitNode] at h
    | extension s nx =>
      simp only [traversalCommit] at h
      cases hnx : traversalCommit c fuel none nx with
      | error err => simp [hnx] at h
      | ok r =>
        obtain ⟨db1, e1⟩ := r
        have h1 := ih nx db1 e1 hnx
        subst h1
        cases e1 with
        | some err =>
          simp only [hnx, Except.ok.injEq, Prod.mk.injEq] at h
          exact h.1.symm
        | none => simp [hnx, commitNode] at h
    | branch nibbles v =>
      simp only [traversalCommit] at h
      cases hch : commitChildren (traversalCommit c fuel) none nibbles with
      | error err => simp [hch] at h
      | ok r =>
        obtain ⟨db1, e1⟩ := r
        have h1 := commitChildren_nil_store (traversalCommit c fuel) ih nibbles db1 e1 hch
        subst h1
        cases e1 with
        | some err =>
          simp only [hch, Except.ok.injEq, Prod.mk.injEq] at h
          exact h.1.symm
        | none => simp [hch, commitNode] at h

/-- Reading a hash whose pair is among well-keyed pairs in front of a store. -/
theorem get_append_wellKeyed (keccak : Bytes → Bytes) (hinj : Function.Injective keccak)
    (old : Store) (b : Bytes) :
    ∀ added : Store, (∀ y ∈ added, y.1 = keccak y.2) → (keccak b, b) ∈ added →
      Store.get (added ++ old) (keccak b) = .ok b := by
  intro added
  induction added with
  | nil => intro _ h; simp at h
  | cons y rest ih =>
    intro hk hmem
    obtain ⟨y1, y2⟩ := y
    have hy : y1 = keccak y2 := hk (y1, y2) (by simp)
    subst hy
    by_cases heq : keccak b = keccak y2
    · have hb : b = y2 := hinj heq
      subst hb
      simp [Store.get, List.lookup]
    · have hne : (keccak b == keccak y2) = false := by simpa using heq
      have hmem2 : (keccak b, b) ∈ rest := by
        rcases List.mem_cons.mp hmem with h3 | h3
        · exact absurd (congrArg Prod.fst h3) heq
        · exact h3
      have := ih (fun y hy => hk y (List.mem_cons_of_mem _ hy)) hmem2
      simpa [Store.get, List.lookup, hne] using this

/-- On nodes without memoised hash or serialisation, where `hash()` and
`serialize()` compute from the current children and value as `commitNode` does:
whenever `Flush()` returns without error on a trie with a non-empty merged pool,
every materialised node `N` reachable from the trie's root whose serialisation
has at least 32 bytes has its pair `(keccak(serialise(N)), serialise(N))` in the
trie's store, and reading that hash yields `serialise(N)` when the hash function
has no collision. A branch whose slots are stale is outside this statement: see
`traversalCommitBranch`. -/
theorem Flush_stores_large_nodes_without_slots (c : Codec) (order : Pool → Pool) (fuel : Nat)
    (h : Heap)
    (p : Nat) (h2 : Heap) (pool : Pool) (last : Bytes)
    (hmerge : mpt.mergeSnapshot fuel h p = .ok (pool, last)) (hne : pool.length ≠ 0)
    (hflush : mpt.Flush c order fuel h p = .ok (h2, none)) :
    ∃ m2 : mpt, h2.objs[p]? = some m2 ∧
      ∀ N, Reach m2.root N → materialised N = true → hashableSize ≤ (c.serialize N).length →
        ∃ s : Store, h2.store m2.db = some s
          ∧ (c.keccak (c.serialize N), c.serialize N) ∈ s
          ∧ (Function.Injective c.keccak →
              s.get (c.keccak (c.serialize N)) = .ok (c.serialize N)) := by
  unfold mpt.Flush at hflush
  cases hobj : h.objs[p]? with
  | none => simp [hobj] at hflush
  | some m =>
    simp only [hobj, hmerge] at hflush
    rw [if_pos hne] at hflush
    split at hflush
    · exact Except.noConfusion hflush
    · rename_i m1 hm1
      split at hflush
      · exact Except.noConfusion hflush
      · simp at hflush
      · rename_i db hcommit
        split at hflush
        · exact Except.noConfusion hflush
        · rename_i d hd
          simp only [Except.ok.injEq, Prod.mk.injEq, and_true] at hflush
          subst hflush
          have hobj2 : ((h.makeMap pool).1.setStore m1.db db).objs[p]? = some m := by
            rw [objs_setStore_makeMap]; exact hobj
          refine ⟨_, setObj_get _ p m _ hobj2, fun N hr hm hl => ?_⟩
          obtain ⟨added, hs, hk, hq⟩ := traversalCommit_spec c fuel _ _ _ _ hcommit
          have hin := hq rfl N hr hm hl
          cases hst : h.store m1.db with
          | none =>
            rw [hst] at hcommit
            have hnil := traversalCommit_nil_store c fuel _ _ _ hcommit
            rw [hnil, hst] at hs
            simp only [storeOf, List.append_nil] at hs
            rw [← hs] at hin
            simp at hin
          | some s0 =>
            cases hdb : m1.db with
            | none => simp [Heap.store, hdb] at hst
            | some i =>
              simp only [Heap.store, hdb] at hst
              have hi : i < h.dbs.length := by
                by_contra hcon
                rw [List.getElem?_eq_none (not_lt.mp hcon)] at hst
                exact Option.noConfusion hst
              cases db with
              | none =>
                simp only [storeOf] at hs
                have : (c.keccak (c.serialize N), c.serialize N) ∈ ([] : Store) := by
                  rw [hs]; exact List.mem_append_left _ hin
                simp at this
              | some s2 =>
                simp only [storeOf, Heap.store, hdb, hst] at hs
                refine ⟨s2, ?_, ?_, fun hinj => ?_⟩
                · simp [Heap.store, Heap.setStore, Heap.setObj, Heap.makeMap, hdb,
                    List.getElem?_set_self hi]
                · rw [hs]; exact List.mem_append_left _ hin
                · rw [hs]; exact get_append_wellKeyed c.keccak hinj s0 _ added hk hin

/-! ## Restructuring rules of `set` and `delete` -/

/-- C22: `set` on `Leaf(nibbles(0x61), "1")` with the leaf's own key and the equal
value `"1"` reports changed = true, and `set` on `Leaf([], "1")` with the empty
key and the value `"2"` returns a branch whose value slot holds the old `"1"`:
the equal-value test sits in the `match == 0` case, where the old value
overwrites the new one when both keys are empty, and the equal-key case writes
the value without comparing it. -/
theorem set_leaf_same_key_misreports (c : Codec) (db : Option Store) (f : Nat) :
    mpt.set c db (f + 1) (.leaf (bytesToNibbles [97]) (some [49])) (bytesToNibbles [97]) (some [49])
        = .ok (.leaf [6, 1] (some [49]), true)
      ∧ mpt.set c db (f + 1) (.leaf [] (some [49])) [] (some [50])
        = .ok (.branch emptyNibbles (some [49]), true) :=
  ⟨rfl, rfl⟩

/-- C23: `set` on `Leaf(nibbles(0x10), "a")` with the key `nibbles(0x20)`, which
shares no prefix with the leaf's key, and the equal value `"a"` returns the leaf
unchanged with changed = false, so the new entry is not stored: in the
`match == 0` case `set` returns as soon as the values are equal. -/
theorem set_leaf_disjoint_key_equal_value_dropped (c : Codec) (db : Option Store) (f : Nat) :
    compareHex (bytesToNibbles [32]) (bytesToNibbles [16]) = 0
      ∧ mpt.set c db (f + 1) (.leaf (bytesToNibbles [16]) (some [97])) (bytesToNibbles [32])
          (some [97])
        = .ok (.leaf [1, 0] (some [97]), false) :=
  ⟨rfl, rfl⟩

/-- C24: on the tree built from the keys `0x12`, `0x1340`, `0x1350`, deleting
`0x12` makes the branch under the extension `[1]` collapse into
`Extension([3], B)`, and the extension case returns
`Extension([1,3], Extension([3], B))`: after `n.next = nn.next` the statement
`n.next = nextNode` behind the switch puts the returned extension back. -/
theorem delete_extension_keeps_inner_extension (c : Codec) (db : Option Store) (f g : Nat) :
    mpt.evaluateTrie c db (f + 4) node.nil
        [(bytesToNibbles [18], some [97]), (bytesToNibbles [19, 64], some [98]),
         (bytesToNibbles [19, 80], some [99])]
        = .ok (.extension [1] (.branch
            ((emptyNibbles.set 2 (.leaf [] (some [97]))).set 3 (.branch
              ((emptyNibbles.set 4 (.leaf [0] (some [98]))).set 5 (.leaf [0] (some [99])))
              none)) none))
      ∧ mpt.delete c db (g + 3)
          (.extension [1] (.branch
            ((emptyNibbles.set 2 (.leaf [] (some [97]))).set 3 (.branch
              ((emptyNibbles.set 4 (.leaf [0] (some [98]))).set 5 (.leaf [0] (some [99])))
              none)) none))
          (bytesToNibbles [18])
        = .ok (.extension [1, 3] (.extension [3] (.branch
            ((emptyNibbles.set 4 (.leaf [0] (some [98]))).set 5 (.leaf [0] (some [99])))
            none)), true, none) :=
  ⟨rfl, rfl⟩

/-- C25: on the tree built from `("do","verb")`, `("dog","puppy")`, `("dop","x")`,
whose branch holds the value `"verb"` and two children, deleting `"dop"` leaves
the value and one child, yet the branch is collapsed into the leaf of `"dog"`
and the value `"verb"` is gone: the scan for the remaining nibble looks at the
children only. -/
theorem delete_branch_drops_value (c : Codec) (db : Option Store) (f g : Nat) :
    mpt.evaluateTrie c db (f + 4) node.nil
        [(bytesToNibbles [100, 111], some [118, 101, 114, 98]),
         (bytesToNibbles [100, 111, 103], some [112, 117, 112, 112, 121]),
         (bytesToNibbles [100, 111, 112], some [120])]
        = .ok (.extension [6, 4, 6, 15] (.branch
            ((emptyNibbles.set 6 (.leaf [7] (some [112, 117, 112, 112, 121]))).set 7
              (.leaf [0] (some [120])))
            (some [118, 101, 114, 98])))
      ∧ mpt.delete c db (g + 3)
          (.extension [6, 4, 6, 15] (.branch
            ((emptyNibbles.set 6 (.leaf [7] (some [112, 117, 112, 112, 121]))).set 7
              (.leaf [0] (some [120])))
            (some [118, 101, 114, 98])))
          (bytesToNibbles [100, 111, 112])
        = .ok (.leaf [6, 4, 6, 15, 6, 7] (some [112, 117, 112, 112, 121]), true, none) :=
  ⟨rfl, rfl⟩

/-- C26: on the tree of `("do","verb")` and `("dog","puppy")` (an extension over a
branch, invariants 1 to 3 hold), `set` with the empty key, `delete` with the
empty key, `delete` with the key `"d"`, shorter than the shared nibbles, and
`delete` with the key `"do"` all end in a runtime index or slice-bound failure. -/
theorem set_delete_fail_on_short_keys (c : Codec) (db : Option Store) (f : Nat)
    (v : trieValue) :
    mpt.set c db (f + 1)
        (.extension [6, 4, 6, 15] (.branch
          (emptyNibbles.set 6 (.leaf [7] (some [112, 117, 112, 112, 121])))
          (some [118, 101, 114, 98]))) [] v
        = .error .indexOutOfRange
      ∧ mpt.delete c db (f + 1)
          (.extension [6, 4, 6, 15] (.branch
            (emptyNibbles.set 6 (.leaf [7] (some [112, 117, 112, 112, 121])))
            (some [118, 101, 114, 98]))) []
        = .error .sliceBounds
      ∧ mpt.delete c db (f + 1)
          (.extension [6, 4, 6, 15] (.branch
            (emptyNibbles.set 6 (.leaf [7] (some [112, 117, 112, 112, 121])))
            (some [118, 101, 114, 98]))) (bytesToNibbles [100])
        = .error .sliceBounds
      ∧ mpt.delete c db (f + 2)
          (.extension [6, 4, 6, 15] (.branch
            (emptyNibbles.set 6 (.leaf [7] (some [112, 117, 112, 112, 121])))
            (some [118, 101, 114, 98]))) (bytesToNibbles [100, 111])
        = .error .indexOutOfRange :=
  ⟨rfl, rfl, rfl, rfl⟩

/-- C29: on the tree built from the keys `0x12`, `0x1340`, `0x1350`, the first
`delete` of `0x12` completes with the tree `Extension([1,3], Extension([3], B))`,
and the second `delete` of `0x12` on that tree does not return it unchanged: it
ends in a slice-bound failure, because the inner extension slices the exhausted
key by the length of its shared nibbles. -/
theorem delete_twice_fails (c : Codec) (db : Option Store) (f g : Nat) :
    mpt.delete c db (f + 3)
        (.extension [1] (.branch
          ((emptyNibbles.set 2 (.leaf [] (some [97]))).set 3 (.branch
            ((emptyNibbles.set 4 (.leaf [0] (some [98]))).set 5 (.leaf [0] (some [99])))
            none)) none))
        (bytesToNibbles [18])
        = .ok (.extension [1, 3] (.extension [3] (.branch
            ((emptyNibbles.set 4 (.leaf [0] (some [98]))).set 5 (.leaf [0] (some [99])))
            none)), true, none)
      ∧ mpt.delete c db (g + 2)
          (.extension [1, 3] (.extension [3] (.branch
            ((emptyNibbles.set 4 (.leaf [0] (some [98]))).set 5 (.leaf [0] (some [99])))
            none)))
          (bytesToNibbles [18])
        = .error .sliceBounds :=
  ⟨rfl, rfl⟩

/-! ## Flush, then mutate -/

/-- The object that `Flush` leaves behind when it returns without error has a nil
request pool. -/
theorem Flush_leaves_nil_pool (c : Codec) (order : Pool → Pool) (fuel : Nat)
    (h : Heap) (p : Nat) (h2 : Heap) (hflush : mpt.Flush c order fuel h p = .ok (h2, none)) :
    ∃ m2 : mpt, h2.objs[p]? = some m2 ∧ m2.requestPool = none := by
  unfold mpt.Flush at hflush
  cases hobj : h.objs[p]? with
  | none => simp [hobj] at hflush
  | some m =>
    simp only [hobj] at hflush
    cases hmerge : mpt.mergeSnapshot fuel h p with
    | error e => simp [hmerge] at hflush
    | ok r =>
      obtain ⟨pool, last⟩ := r
      simp only [hmerge] at hflush
      by_cases hlen : pool.length ≠ 0
      · rw [if_pos hlen] at hflush
        split at hflush
        · exact Except.noConfusion hflush
        · rename_i m1 hm1
          split at hflush
          · exact Except.noConfusion hflush
          · simp at hflush
          · rename_i db hcommit
            split at hflush
            · exact Except.noConfusion hflush
            · rename_i d hd
              simp only [Except.ok.injEq, Prod.mk.injEq, and_true] at hflush
              subst hflush
              have hobj2 : ((h.makeMap pool).1.setStore m1.db db).objs[p]? = some m := by
                rw [objs_setStore_makeMap]; exact hobj
              exact ⟨_, setObj_get _ p m _ hobj2, rfl⟩
      · rw [if_neg hlen] at hflush
        simp only [Except.ok.injEq, Prod.mk.injEq, and_true] at hflush
        subst hflush
        have hobj2 : (h.makeMap pool).1.objs[p]? = some m := hobj
        exact ⟨_, setObj_get _ p m _ hobj2, rfl⟩

/-- C30: on every trie on which `Flush()` has returned without error, a later
`Set(k, v)` with non-nil `k` and `v` does not complete, and neither does
`Delete(k)`: `Flush` ends with `m.requestPool = nil`, and both calls write into
that nil map. -/
theorem Set_after_Flush_fails (c : Codec) (order : Pool → Pool) (fuel : Nat)
    (h : Heap) (p : Nat) (h2 : Heap) (kb vb : Bytes)
    (hflush : mpt.Flush c order fuel h p = .ok (h2, none)) :
    mpt.Set h2 p (some kb) (some vb) = .error .nilMapWrite
      ∧ mpt.Delete h2 p kb = .error .nilMapWrite := by
  obtain ⟨m2, hobj, hpool⟩ := Flush_leaves_nil_pool c order fuel h p h2 hflush
  constructor
  · simp [mpt.Set, hobj, hpool]
  · simp [mpt.Delete, hobj, hpool]

/-- C30 at the fresh trie over the empty hash, flushed with an empty pool, then
`Set("a","1")` and `Delete("a")`. -/
theorem Set_after_Flush_fails_witness :
    mpt.Set ⟨[mpt.mk (.hash []) [] false none none (some 0)], [[], []], [[]]⟩ 0
        (some [97]) (some [49]) = .error .nilMapWrite
      ∧ mpt.Delete ⟨[mpt.mk (.hash []) [] false none none (some 0)], [[], []], [[]]⟩ 0 [97]
        = .error .nilMapWrite :=
  Set_after_Flush_fails ⟨fun _ => node.nil, fun _ => [], fun b => b⟩ (fun p => p) 2
    (newMpt ⟨[], [], [[]]⟩ (some 0) []).1 0
    ⟨[mpt.mk (.hash []) [] false none none (some 0)], [[], []], [[]]⟩ [97] [49] rfl

/-! ## Branch serialisation and its memoisation -/

/-- The loop body of `branch.serialize` always yields bytes: the encoding of the
empty slice for an absent child, the encoded hash from `hashableSize` bytes on,
the serialisation itself below. -/
theorem serializeNibble_spec (c : Codec) (e : Encoder) (n : node) :
    ∃ b : Bytes, serializeNibble c e n = .ok b
      ∧ (n = node.nil → b = e.encodeByte [])
      ∧ (n ≠ node.nil → hashableSize ≤ (c.serialize n).length →
          ∃ d, nodeHash c n = .ok d ∧ b = e.encodeByte d)
      ∧ (n ≠ node.nil → (c.serialize n).length < hashableSize → b = c.serialize n) := by
  cases n with
  | nil => exact ⟨_, rfl, fun _ => rfl, fun h => absurd rfl h, fun h => absurd rfl h⟩
  | branch nibbles value =>
    by_cases hl : hashableSize ≤ (c.serialize (.branch nibbles value)).length
    · exact ⟨_, by simp [serializeNibble, hl, nodeHash], by simp, fun _ _ => ⟨_, rfl, rfl⟩,
        fun _ h => absurd hl (by omega)⟩
    · exact ⟨_, by simp [serializeNibble, hl], by simp, fun _ h => absurd h hl, fun _ _ => rfl⟩
  | extension s nx =>
    by_cases hl : hashableSize ≤ (c.serialize (.extension s nx)).length
    · exact ⟨_, by simp [serializeNibble, hl, nodeHash], by simp, fun _ _ => ⟨_, rfl, rfl⟩,
        fun _ h => absurd hl (by omega)⟩
    · exact ⟨_, by simp [serializeNibble, hl], by simp, fun _ h => absurd h hl, fun _ _ => rfl⟩
  | leaf ke v =>
    by_cases hl : hashableSize ≤ (c.serialize (.leaf ke v)).length
    · exact ⟨_, by simp [serializeNibble, hl, nodeHash], by simp, fun _ _ => ⟨_, rfl, rfl⟩,
        fun _ h => absurd hl (by omega)⟩
    · exact ⟨_, by simp [serializeNibble, hl], by simp, fun _ h => absurd h hl, fun _ _ => rfl⟩
  | hash d =>
    by_cases hl : hashableSize ≤ (c.serialize (.hash d)).length
    · exact ⟨_, by simp [serializeNibble, hl, nodeHash], by simp, fun _ _ => ⟨_, rfl, rfl⟩,
        fun _ h => absurd hl (by omega)⟩
    · exact ⟨_, by simp [serializeNibble, hl], by simp, fun _ h => absurd h hl, fun _ _ => rfl⟩

/-- The loop of `branch.serialize` appends the bytes of the slots in order. -/
theorem serializeLoop_eq (c : Codec) (e : Encoder) (nibbles : List node) (enc : Nat → Bytes)
    (henc : ∀ i, serializeNibble c e (nibbles.getD i node.nil) = .ok (enc i)) :
    ∀ (idxs : List Nat) (acc : Bytes),
      serializeLoop c e nibbles idxs acc = .ok (acc ++ (idxs.map enc).flatten) := by
  intro idxs
  induction idxs with
  | nil => intro acc; simp [serializeLoop]
  | cons i rest ih =>
    intro acc
    simp only [serializeLoop, henc i, ih, List.map_cons, List.flatten_cons, List.append_assoc]

/-- C21: for every branch that is dirty or has no cached serialisation,
`serialize()` returns `encodeList(c0 ++ … ++ c15, encodeByte(value or empty))`,
where `ci` is `encodeByte(empty)` if child `i` is absent, `encodeByte(hash(child))`
if the child's serialisation has at least 32 bytes, and the child's
serialisation itself if it has fewer. -/
theorem branch_serialize_spec (c : Codec) (e : Encoder) (br : branch)
    (hstale : br.dirty = true ∨ br.serializedValue = none) :
    ∃ (cs : List Bytes) (br2 : branch),
      branch.serialize c e br
          = .ok (e.encodeList [cs.flatten, e.encodeByte (br.value.getD [])], br2)
        ∧ cs.length = 16
        ∧ ∀ i, i < 16 →
            (br.nibbles.getD i node.nil = node.nil → cs[i]? = some (e.encodeByte []))
            ∧ (br.nibbles.getD i node.nil ≠ node.nil →
                hashableSize ≤ (c.serialize (br.nibbles.getD i node.nil)).length →
                ∃ d, nodeHash c (br.nibbles.getD i node.nil) = .ok d
                  ∧ cs[i]? = some (e.encodeByte d))
            ∧ (br.nibbles.getD i node.nil ≠ node.nil →
                (c.serialize (br.nibbles.getD i node.nil)).length < hashableSize →
                cs[i]? = some (c.serialize (br.nibbles.getD i node.nil))) := by
  choose enc henc hnil hbig hsmall using
    fun i => serializeNibble_spec c e (br.nibbles.getD i node.nil)
  have hloop := serializeLoop_eq c e br.nibbles enc henc (List.range 16) []
  have hval : (match br.value with
      | none => ([] : Bytes)
      | some b => b) = br.value.getD [] := by
    cases br.value <;> rfl
  have hcs : ∀ i, i < 16 → ((List.range 16).map enc)[i]? = some (enc i) := by
    intro i hi
    rw [List.getElem?_map, List.getElem?_range hi]
    rfl
  obtain ⟨nibbles, value, hv, sv, dirty⟩ := br
  refine ⟨(List.range 16).map enc, ⟨nibbles, value, none,
    some (e.encodeList [((List.range 16).map enc).flatten, e.encodeByte (value.getD [])]), false⟩,
    ?_, by simp, fun i hi => ⟨?_, ?_, ?_⟩⟩
  · simp only [List.nil_append] at hloop
    simp only at hval
    rcases hstale with hd | hs
    · simp only at hd
      subst hd
      simp only [branch.serialize, if_true, hloop, hval]
    · simp only at hs
      subst hs
      cases dirty with
      | true => simp only [branch.serialize, if_true, hloop, hval]
      | false => simp [branch.serialize, hloop, hval]
  · intro h; rw [hcs i hi, hnil i h]
  · intro h hl
    obtain ⟨d, hd, hb⟩ := hbig i h hl
    exact ⟨d, hd, by rw [hcs i hi, hb]⟩
  · intro h hl; rw [hcs i hi, hsmall i h hl]

/-- C21 at the branch holding the value `"verb"` and the leaf `([7], "puppy")` in
slot 6, with an encoder that leaves bytes as they are and a codec whose
serialisations are empty. -/
theorem branch_serialize_spec_witness :
    ∃ (cs : List Bytes) (br2 : branch),
      branch.serialize ⟨fun _ => node.nil, fun _ => [], fun b => b⟩ ⟨fun b => b, List.flatten⟩
          ⟨emptyNibbles.set 6 (.leaf [7] (some [112, 117, 112, 112, 121])),
            some [118, 101, 114, 98], none, none, false⟩
          = .ok (List.flatten [cs.flatten, (some [118, 101, 114, 98] : trieValue).getD []], br2)
        ∧ cs.length = 16
        ∧ ∀ i, i < 16 →
            ((emptyNibbles.set 6 (.leaf [7] (some [112, 117, 112, 112, 121]))).getD i node.nil
                = node.nil → cs[i]? = some [])
            ∧ ((emptyNibbles.set 6 (.leaf [7] (some [112, 117, 112, 112, 121]))).getD i node.nil
                ≠ node.nil →
                hashableSize ≤ ([] : Bytes).length →
                ∃ d, nodeHash ⟨fun _ => node.nil, fun _ => [], fun b => b⟩
                    ((emptyNibbles.set 6 (.leaf [7] (some [112, 117, 112, 112, 121]))).getD i
                      node.nil) = .ok d
                  ∧ cs[i]? = some d)
            ∧ ((emptyNibbles.set 6 (.leaf [7] (some [112, 117, 112, 112, 121]))).getD i node.nil
                ≠ node.nil →
                ([] : Bytes).length < hashableSize → cs[i]? = some []) :=
  branch_serialize_spec ⟨fun _ => node.nil, fun _ => [], fun b => b⟩ ⟨fun b => b, List.flatten⟩
    ⟨emptyNibbles.set 6 (.leaf [7] (some [112, 117, 112, 112, 121])),
      some [118, 101, 114, 98], none, none, false⟩ (Or.inr rfl)

/-- C28: on every branch that is not dirty and holds a cached serialisation `s0`
and a cached hash `d0`, `set` with the empty key changes the value slot and
reports a change, and the next `serialize()` and `hash()` still return `s0` and
`d0` from the cache, whatever the new value is: the case writes `n.value`
without touching `dirty`. Likewise, on the branch with the leaves `([5], "a")`
and `([7], "b")`, a `set` that replaces `"a"` marks the branch dirty, a further
`set` that leaves the subtree unchanged overwrites `dirty` with false, and
`serialize()` returns the cached `s0` again. -/
theorem set_keeps_stale_cache (c : Codec) (e : Encoder) (db : Option Store) (fuel : Nat)
    (br : branch) (v : trieValue) (s0 d0 : Bytes)
    (hclean : br.dirty = false) (hs : br.serializedValue = some s0)
    (hh : br.hashedValue = some d0) :
    (∃ br2 : branch, mpt.setBranch c db fuel br [] v = .ok (br2, true)
        ∧ br2.value = v ∧ br2.nibbles = br.nibbles
        ∧ branch.serialize c e br2 = .ok (s0, br2)
        ∧ branch.hash c e br2 = .ok (d0, br2))
      ∧ (∃ b1 b2 : branch,
          mpt.setBranch c db (fuel + 1)
              ⟨(emptyNibbles.set 1 (.leaf [5] (some [97]))).set 2 (.leaf [7] (some [98])),
                none, none, some s0, false⟩ [1, 5] (some [120]) = .ok (b1, true)
          ∧ b1.nibbles = (emptyNibbles.set 1 (.leaf [5] (some [120]))).set 2 (.leaf [7] (some [98]))
          ∧ b1.dirty = true
          ∧ mpt.setBranch c db (fuel + 1) b1 [2, 9] (some [98]) = .ok (b2, true)
          ∧ b2.nibbles = b1.nibbles ∧ b2.dirty = false
          ∧ branch.serialize c e b2 = .ok (s0, b2)) := by
  constructor
  · obtain ⟨nibbles, value, hv, sv, dirty⟩ := br
    simp only at hclean hs hh
    subst hclean hs hh
    exact ⟨⟨nibbles, v, some d0, some s0, false⟩, rfl, rfl, rfl, rfl, rfl⟩
  · exact ⟨⟨(emptyNibbles.set 1 (.leaf [5] (some [120]))).set 2 (.leaf [7] (some [98])),
        none, none, some s0, true⟩,
      ⟨(emptyNibbles.set 1 (.leaf [5] (some [120]))).set 2 (.leaf [7] (some [98])),
        none, none, some s0, false⟩, rfl, rfl, rfl, rfl, rfl, rfl, rfl⟩

/-- C28 at the branch with the value `"a"`, cached with the serialisation of that
state, after `set` of the value `"b"`: `serialize()` returns the bytes of `"a"`. -/
theorem set_keeps_stale_cache_witness :
    (∃ br2 : branch,
        mpt.setBranch ⟨fun _ => node.nil, fun _ => [], fun b => b⟩ none 1
            ⟨emptyNibbles, some [97], some [97], some [97], false⟩ [] (some [98]) = .ok (br2, true)
        ∧ br2.value = some [98]
        ∧ br2.nibbles = emptyNibbles
        ∧ branch.serialize ⟨fun _ => node.nil, fun _ => [], fun b => b⟩
            ⟨fun b => b, List.flatten⟩ br2 = .ok ([97], br2)
        ∧ branch.hash ⟨fun _ => node.nil, fun _ => [], fun b => b⟩
            ⟨fun b => b, List.flatten⟩ br2 = .ok ([97], br2))
      ∧ (∃ b1 b2 : branch,
          mpt.setBranch ⟨fun _ => node.nil, fun _ => [], fun b => b⟩ none (1 + 1)
              ⟨(emptyNibbles.set 1 (.leaf [5] (some [97]))).set 2 (.leaf [7] (some [98])),
                none, none, some [97], false⟩ [1, 5] (some [120]) = .ok (b1, true)
          ∧ b1.nibbles = (emptyNibbles.set 1 (.leaf [5] (some [120]))).set 2 (.leaf [7] (some [98]))
          ∧ b1.dirty = true
          ∧ mpt.setBranch ⟨fun _ => node.nil, fun _ => [], fun b => b⟩ none (1 + 1) b1 [2, 9]
              (some [98]) = .ok (b2, true)
          ∧ b2.nibbles = b1.nibbles ∧ b2.dirty = false
          ∧ branch.serialize ⟨fun _ => node.nil, fun _ => [], fun b => b⟩
              ⟨fun b => b, List.flatten⟩ b2 = .ok ([97], b2)) :=
  set_keeps_stale_cache ⟨fun _ => node.nil, fun _ => [], fun b => b⟩ ⟨fun b => b, List.flatten⟩
    none 1 ⟨emptyNibbles, some [97], some [97], some [97], false⟩ (some [98]) [97] [97]
    rfl rfl rfl

/-! ## Commit of a branch that `get` resolved from the store -/

/-- C16: take a branch that `get` resolved from the store under the hash `H`
(`hashedValue = H`, not dirty), write its value slot by `set` with the empty key
and commit it as `Flush` does. When `deserialize` left no cached serialisation,
`traversalCommit` stores the serialisation `S` of the branch's current state
under the old hash `H`, and the `hash()` that follows, which `Flush` records as
the committed hash, is `keccak(S)`. When `deserialize` left the cached
serialisation `s0`, `traversalCommit` stores `s0` under `H`, and the
serialisation of the current state nowhere. At the branch with the leaf
`([7], "puppy")` in slot 6 and a 32-byte value, in a store that holds the branch
under its hash `H`, the store after the commit has no entry under `keccak(S)`,
although `S` has 32 bytes, and reading `H` yields `S`. -/
theorem commit_stores_stale_branch_under_old_hash (c : Codec) (e : Encoder) (fuel : Nat)
    (st st1 : Store) (nibbles : List node) (old v : trieValue) (H s0 : Bytes)
    (hchildren : commitChildren (traversalCommit c fuel) (some st) nibbles
      = .ok (some st1, none)) :
    (∃ S : Bytes,
        branch.serialize c e ⟨nibbles, v, none, none, false⟩
          = .ok (S, ⟨nibbles, v, none, some S, false⟩)
        ∧ mpt.setBranch c (some st) fuel
            (resolvedBranch H ⟨nibbles, old, none, none, false⟩) [] v
          = .ok (⟨nibbles, v, some H, none, false⟩, true)
        ∧ traversalCommitBranch c e fuel (some st) ⟨nibbles, v, some H, none, false⟩
          = .ok (some ((H, S) :: st1), none, ⟨nibbles, v, none, some S, false⟩)
        ∧ branch.hash c e ⟨nibbles, v, none, some S, false⟩
          = .ok (c.keccak S, ⟨nibbles, v, some (c.keccak S), some S, false⟩))
      ∧ (mpt.setBranch c (some st) fuel
            (resolvedBranch H ⟨nibbles, old, none, some s0, false⟩) [] v
          = .ok (⟨nibbles, v, some H, some s0, false⟩, true)
        ∧ traversalCommitBranch c e fuel (some st) ⟨nibbles, v, some H, some s0, false⟩
          = .ok (some ((H, s0) :: st1), none, ⟨nibbles, v, some H, some s0, false⟩)
        ∧ branch.hash c e ⟨nibbles, v, some H, some s0, false⟩
          = .ok (H, ⟨nibbles, v, some H, some s0, false⟩))
      ∧ (branch.hash ⟨fun _ => node.nil, fun _ => [], fun b => 1 :: b⟩ ⟨fun b => b, List.flatten⟩
            ⟨emptyNibbles.set 6 (.leaf [7] (some [112, 117, 112, 112, 121])),
              some (List.replicate 32 118), none, none, false⟩
          = .ok (1 :: List.replicate 32 118,
              ⟨emptyNibbles.set 6 (.leaf [7] (some [112, 117, 112, 112, 121])),
                some (List.replicate 32 118), some (1 :: List.replicate 32 118),
                some (List.replicate 32 118), false⟩)
        ∧ branch.serialize ⟨fun _ => node.nil, fun _ => [], fun b => 1 :: b⟩
            ⟨fun b => b, List.flatten⟩
            ⟨emptyNibbles.set 6 (.leaf [7] (some [112, 117, 112, 112, 121])),
              some (List.replicate 32 110), none, none, false⟩
          = .ok (List.replicate 32 110,
              ⟨emptyNibbles.set 6 (.leaf [7] (some [112, 117, 112, 112, 121])),
                some (List.replicate 32 110), none, some (List.replicate 32 110), false⟩)
        ∧ hashableSize ≤ (List.replicate 32 110).length
        ∧ ∃ st2 : Store,
            traversalCommitBranch ⟨fun _ => node.nil, fun _ => [], fun b => 1 :: b⟩
                ⟨fun b => b, List.flatten⟩ 1
                (some [(1 :: List.replicate 32 118, List.replicate 32 118)])
                ⟨emptyNibbles.set 6 (.leaf [7] (some [112, 117, 112, 112, 121])),
                  some (List.replicate 32 110), some (1 :: List.replicate 32 118), none, false⟩
              = .ok (some st2, none,
                  ⟨emptyNibbles.set 6 (.leaf [7] (some [112, 117, 112, 112, 121])),
                    some (List.replicate 32 110), none, some (List.replicate 32 110), false⟩)
            ∧ st2.get (1 :: List.replicate 32 110) = .error .notFound
            ∧ st2.get (1 :: List.replicate 32 118) = .ok (List.replicate 32 110)) := by
  choose enc henc _ _ _ using fun i => serializeNibble_spec c e (nibbles.getD i node.nil)
  have hloop := serializeLoop_eq c e nibbles enc henc (List.range 16) []
  simp only [List.nil_append] at hloop
  refine ⟨⟨e.encodeList [((List.range 16).map enc).flatten,
      e.encodeByte (match v with
        | none => []
        | some b => b)], ?_, rfl, ?_, rfl⟩, ⟨rfl, ?_, rfl⟩, rfl, rfl, by decide,
    ⟨[(1 :: List.replicate 32 118, List.replicate 32 110),
      (1 :: List.replicate 32 118, List.replicate 32 118)], rfl, rfl, rfl⟩⟩
  · simp [branch.serialize, hloop]
  · simp [traversalCommitBranch, hchildren, commitBranch, branch.hash, branch.serialize, hloop,
      Store.put]
  · simp [traversalCommitBranch, hchildren, commitBranch, branch.hash, branch.serialize,
      Store.put]

/-- C16 at the branch with the leaf `([7], "puppy")` in slot 6, resolved under the
hash of its state with the value of 32 bytes `v`, after `set` of 32 bytes `n`. -/
theorem commit_stores_stale_branch_under_old_hash_witness :
    commitChildren (traversalCommit ⟨fun _ => node.nil, fun _ => [], fun b => 1 :: b⟩ 1)
        (some [(1 :: List.replicate 32 118, List.replicate 32 118)])
        (emptyNibbles.set 6 (.leaf [7] (some [112, 117, 112, 112, 121])))
      = .ok (some [(1 :: List.replicate 32 118, List.replicate 32 118)], none)
    ∧ ∃ S : Bytes,
        branch.serialize ⟨fun _ => node.nil, fun _ => [], fun b => 1 :: b⟩
            ⟨fun b => b, List.flatten⟩
            ⟨emptyNibbles.set 6 (.leaf [7] (some [112, 117, 112, 112, 121])),
              some (List.replicate 32 110), none, none, false⟩
          = .ok (S, ⟨emptyNibbles.set 6 (.leaf [7] (some [112, 117, 112, 112, 121])),
              some (List.replicate 32 110), none, some S, false⟩)
        ∧ traversalCommitBranch ⟨fun _ => node.nil, fun _ => [], fun b => 1 :: b⟩
            ⟨fun b => b, List.flatten⟩ 1
            (some [(1 :: List.replicate 32 118, List.replicate 32 118)])
            ⟨emptyNibbles.set 6 (.leaf [7] (some [112, 117, 112, 112, 121])),
              some (List.replicate 32 110), some (1 :: List.replicate 32 118), none, false⟩
          = .ok (some [(1 :: List.replicate 32 118, S),
                (1 :: List.replicate 32 118, List.replicate 32 118)], none,
              ⟨emptyNibbles.set 6 (.leaf [7] (some [112, 117, 112, 112, 121])),
                some (List.replicate 32 110), none, some S, false⟩) :=
  ⟨rfl,
    (commit_stores_stale_branch_under_old_hash
      ⟨fun _ => node.nil, fun _ => [], fun b => 1 :: b⟩ ⟨fun b => b, List.flatten⟩ 1
      [(1 :: List.replicate 32 118, List.replicate 32 118)]
      [(1 :: List.replicate 32 118, List.replicate 32 118)]
      (emptyNibbles.set 6 (.leaf [7] (some [112, 117, 112, 112, 121])))
      (some (List.replicate 32 118)) (some (List.replicate 32 110))
      (1 :: List.replicate 32 118) (List.replicate 32 118) rfl).1.imp
      (fun _ hS => ⟨hS.1, hS.2.2.1⟩)⟩

/-! ## Invariant 1: no extension with an empty shared-nibble vector -/

/-- A successful bind has a successful first step. -/
theorem bind_ok {α β : Type} {x : Except Panic α} {f : α → Except Panic β} {b : β}
    (h : (x >>= f) = .ok b) : ∃ a, x = .ok a ∧ f a = .ok b := by
  cases x with
  | error e => exact Except.noConfusion h
  | ok a => exact ⟨a, rfl, h⟩

/-- The fresh array of a branch holds nil only. -/
theorem emptyNibbles_noEmptyShared : ∀ ch ∈ emptyNibbles, NoEmptyShared ch := by
  intro ch hch
  have : ch = node.nil := List.eq_of_mem_replicate hch
  rw [this]
  exact NoEmptyShared.nil

/-- Writing a slot keeps the invariant of the slots. -/
theorem set_noEmptyShared (l : List node) (i : Nat) (x : node)
    (hl : ∀ ch ∈ l, NoEmptyShared ch) (hx : NoEmptyShared x) :
    ∀ ch ∈ l.set i x, NoEmptyShared ch := by
  intro ch hch
  rcases List.mem_or_eq_of_mem_set hch with h | h
  · exact hl ch h
  · rw [h]; exact hx

/-- An array write that succeeds keeps the invariant of the slots. -/
theorem setNibbleAt_noEmptyShared (l l2 : List node) (i : Nat) (x : node)
    (h : setNibbleAt l i x = .ok l2)
    (hl : ∀ ch ∈ l, NoEmptyShared ch) (hx : NoEmptyShared x) :
    ∀ ch ∈ l2, NoEmptyShared ch := by
  unfold setNibbleAt at h
  split_ifs at h
  cases h
  exact set_noEmptyShared l i x hl hx

/-- A slot read from slots with the invariant has the invariant. -/
theorem getD_noEmptyShared (l : List node) (i : Nat) (hl : ∀ ch ∈ l, NoEmptyShared ch) :
    NoEmptyShared (l.getD i node.nil) := by
  rw [List.getD_eq_getElem?_getD]
  cases h : l[i]? with
  | none => exact NoEmptyShared.nil
  | some x => exact hl x (List.getElem?_mem h)

/-- An array read that succeeds yields a node with the invariant. -/
theorem nibbleAt_noEmptyShared (l : List node) (i : Nat) (x : node)
    (h : nibbleAt l i = .ok x) (hl : ∀ ch ∈ l, NoEmptyShared ch) : NoEmptyShared x := by
  unfold nibbleAt at h
  split_ifs at h
  cases h
  exact getD_noEmptyShared l i hl

/-- `set` keeps invariant 1. -/
theorem set_noEmptyShared_tree (c : Codec) (db : Option Store) :
    ∀ (fuel : Nat) (t : node) (k : List Nat) (v : trieValue) (r : node × Bool),
      NoEmptyShared t → mpt.set c db fuel t k v = .ok r → NoEmptyShared r.1 := by
  intro fuel
  induction fuel with
  | zero => intro t k v r _ h; simp [mpt.set] at h
  | succ fuel ih =>
    intro t k v r ht h
    cases ht with
    | nil =>
      simp only [mpt.set] at h
      cases h
      exact NoEmptyShared.leaf _ _
    | leaf ke value =>
      simp only [mpt.set] at h
      by_cases h0 : compareHex k ke = 0
      · rw [if_pos h0] at h
        obtain ⟨same, hsame, h⟩ := bind_ok h
        cases same with
        | true =>
          simp only [if_true] at h
          cases h
          exact NoEmptyShared.leaf _ _
        | false =>
          simp only [Bool.false_eq_true, if_false] at h
          obtain ⟨⟨nb, bv⟩, hnb, h⟩ := bind_ok h
          have hP : ∀ ch ∈ nb, NoEmptyShared ch := by
            cases k with
            | nil =>
              simp only at hnb
              cases hnb
              exact emptyNibbles_noEmptyShared
            | cons k0 ks =>
              simp only at hnb
              obtain ⟨r1, hr1, hnb⟩ := bind_ok hnb
              obtain ⟨nb1, hnb1, hnb⟩ := bind_ok hnb
              cases hnb
              exact setNibbleAt_noEmptyShared _ _ _ _ hnb1 emptyNibbles_noEmptyShared
                (ih _ _ _ _ NoEmptyShared.nil hr1)
          simp only at h
          cases ke with
          | nil =>
            simp only at h
            cases h
            exact NoEmptyShared.branch _ _ hP
          | cons e0 es =>
            simp only at h
            obtain ⟨r1, hr1, h⟩ := bind_ok h
            obtain ⟨nb1, hnb1, h⟩ := bind_ok h
            cases h
            exact NoEmptyShared.branch _ _
              (setNibbleAt_noEmptyShared _ _ _ _ hnb1 hP (ih _ _ _ _ NoEmptyShared.nil hr1))
      · rw [if_neg h0] at h
        have htake : List.take (compareHex k ke) k ≠ [] := by
          intro hcon
          rcases List.take_eq_nil_iff.mp hcon with h3 | h3
          · exact h0 h3
          · subst h3
            exact h0 (by cases ke <;> rfl)
        by_cases h1 : compareHex k ke < ke.length
        · rw [if_pos h1] at h
          obtain ⟨⟨nb, bv⟩, hnb, h⟩ := bind_ok h
          have hP : ∀ ch ∈ nb, NoEmptyShared ch := by
            by_cases h3 : compareHex k ke = k.length
            · rw [if_pos h3] at hnb
              cases hnb
              exact emptyNibbles_noEmptyShared
            · rw [if_neg h3] at hnb
              obtain ⟨km, hkm, hnb⟩ := bind_ok hnb
              obtain ⟨r1, hr1, hnb⟩ := bind_ok hnb
              obtain ⟨nb1, hnb1, hnb⟩ := bind_ok hnb
              cases hnb
              exact setNibbleAt_noEmptyShared _ _ _ _ hnb1 emptyNibbles_noEmptyShared
                (ih _ _ _ _ NoEmptyShared.nil hr1)
          simp only at h
          obtain ⟨em, hem, h⟩ := bind_ok h
          obtain ⟨r1, hr1, h⟩ := bind_ok h
          obtain ⟨nb1, hnb1, h⟩ := bind_ok h
          cases h
          exact NoEmptyShared.extension _ _ htake (NoEmptyShared.branch _ _
            (setNibbleAt_noEmptyShared _ _ _ _ hnb1 hP (ih _ _ _ _ NoEmptyShared.nil hr1)))
        · rw [if_neg h1] at h
          by_cases h2 : compareHex k ke < k.length
          · rw [if_pos h2] at h
            obtain ⟨km, hkm, h⟩ := bind_ok h
            obtain ⟨r1, hr1, h⟩ := bind_ok h
            obtain ⟨nb1, hnb1, h⟩ := bind_ok h
            cases h
            exact NoEmptyShared.extension _ _ htake (NoEmptyShared.branch _ _
              (setNibbleAt_noEmptyShared _ _ _ _ hnb1 emptyNibbles_noEmptyShared
                (ih _ _ _ _ NoEmptyShared.nil hr1)))
          · rw [if_neg h2] at h
            cases h
            exact NoEmptyShared.leaf _ _
    | branch nibbles value hch =>
      simp only [mpt.set] at h
      cases k with
      | nil =>
        simp only at h
        cases h
        exact NoEmptyShared.branch _ _ hch
      | cons k0 ks =>
        simp only at h
        obtain ⟨child, hchild, h⟩ := bind_ok h
        obtain ⟨r1, hr1, h⟩ := bind_ok h
        cases h
        exact NoEmptyShared.branch _ _ (set_noEmptyShared _ _ _ hch
          (ih _ _ _ _ (nibbleAt_noEmptyShared _ _ _ hchild hch) hr1))
    | extension s nx hs hnx =>
      simp only [mpt.set] at h
      have hdrop : ∀ n, n < s.length → NoEmptyShared (.extension (s.drop n) nx) := by
        intro n hn
        refine NoEmptyShared.extension _ _ (fun hcon => ?_) hnx
        have := List.drop_eq_nil_iff.mp hcon
        omega
      have hslen : 0 < s.length := List.length_pos.mpr hs
      by_cases h0 : compareHex k s = 0
      · rw [if_pos h0] at h
        obtain ⟨k0, hk0, h⟩ := bind_ok h
        obtain ⟨r1, hr1, h⟩ := bind_ok h
        obtain ⟨nb1, hnb1, h⟩ := bind_ok h
        obtain ⟨s0, hs0, h⟩ := bind_ok h
        obtain ⟨nb2, hnb2, h⟩ := bind_ok h
        cases h
        have hold : NoEmptyShared
            (if s.length = 1 then nx else node.extension (s.drop 1) nx) := by
          by_cases h1 : s.length = 1
          · rw [if_pos h1]; exact hnx
          · rw [if_neg h1]; exact hdrop 1 (by omega)
        exact NoEmptyShared.branch _ _ (setNibbleAt_noEmptyShared _ _ _ _ hnb2
          (setNibbleAt_noEmptyShared _ _ _ _ hnb1 emptyNibbles_noEmptyShared
            (ih _ _ _ _ NoEmptyShared.nil hr1)) hold)
      · rw [if_neg h0] at h
        have htake : List.take (compareHex k s) k ≠ [] := by
          intro hcon
          rcases List.take_eq_nil_iff.mp hcon with h3 | h3
          · exact h0 h3
          · subst h3
            exact h0 (by cases s <;> rfl)
        by_cases h1 : compareHex k s < s.length
        · rw [if_pos h1] at h
          obtain ⟨sm, hsm, h⟩ := bind_ok h
          obtain ⟨nb1, hnb1, h⟩ := bind_ok h
          have hold : NoEmptyShared
              (if compareHex k s + 1 = s.length then nx
               else node.extension (s.drop (compareHex k s + 1)) nx) := by
            by_cases h3 : compareHex k s + 1 = s.length
            · rw [if_pos h3]; exact hnx
            · rw [if_neg h3]; exact hdrop _ (by omega)
          have hP1 := setNibbleAt_noEmptyShared _ _ _ _ hnb1 emptyNibbles_noEmptyShared hold
          by_cases h4 : compareHex k s = k.length
          · rw [if_pos h4] at h
            cases h
            exact NoEmptyShared.extension _ _ htake (NoEmptyShared.branch _ _ hP1)
          · rw [if_neg h4] at h
            obtain ⟨km, hkm, h⟩ := bind_ok h
            obtain ⟨r1, hr1, h⟩ := bind_ok h
            obtain ⟨nb2, hnb2, h⟩ := bind_ok h
            cases h
            exact NoEmptyShared.extension _ _ htake (NoEmptyShared.branch _ _
              (setNibbleAt_noEmptyShared _ _ _ _ hnb2 hP1 (ih _ _ _ _ NoEmptyShared.nil hr1)))
        · rw [if_neg h1] at h
          by_cases h2 : compareHex k s < k.length
          · rw [if_pos h2] at h
            obtain ⟨r1, hr1, h⟩ := bind_ok h
            cases h
            exact NoEmptyShared.extension _ _ hs (ih _ _ _ _ hnx hr1)
          · rw [if_neg h2] at h
            cases hnx with
            | branch nibbles bv hch =>
              simp only at h
              cases h
              exact NoEmptyShared.extension _ _ hs (NoEmptyShared.branch _ _ hch)
            | nil => simp at h
            | leaf ke2 v2 => simp at h
            | extension s2 n2 hs2 hn2 => simp at h

/-- `delete` keeps invariant 1. -/
theorem delete_noEmptyShared_tree (c : Codec) (db : Option Store) :
    ∀ (fuel : Nat) (t : node) (k : List Nat) (r : node × Bool × Option GoError),
      NoEmptyShared t → mpt.delete c db fuel t k = .ok r → NoEmptyShared r.1 := by
  intro fuel
  induction fuel with
  | zero => intro t k r _ h; simp [mpt.delete] at h
  | succ fuel ih =>
    intro t k r ht h
    cases ht with
    | nil =>
      simp only [mpt.delete] at h
      cases h
      exact NoEmptyShared.nil
    | leaf ke value =>
      simp only [mpt.delete] at h
      by_cases h0 : ke ≠ k
      · rw [if_pos h0] at h
        cases h
        exact NoEmptyShared.leaf _ _
      · rw [if_neg h0] at h
        cases h
        exact NoEmptyShared.nil
    | branch nibbles value hch =>
      simp only [mpt.delete] at h
      obtain ⟨k0, hk0, h⟩ := bind_ok h
      obtain ⟨child, hchild, h⟩ := bind_ok h
      obtain ⟨r1, hr1, h⟩ := bind_ok h
      have hr1P := ih _ _ _ (nibbleAt_noEmptyShared _ _ _ hchild hch) hr1
      have hsetP := set_noEmptyShared nibbles k0 r1.1 hch hr1P
      by_cases h0 : r1.2.1 = false
      · rw [if_pos h0] at h
        cases h
        exact NoEmptyShared.branch _ _ hch
      · rw [if_neg h0] at h
        cases hrn : remainingNibble (nibbles.set k0 r1.1) 0 16 with
        | none =>
          simp only [hrn] at h
          cases h
          exact NoEmptyShared.branch _ _ hsetP
        | some rn =>
          simp only [hrn] at h
          by_cases h16 : rn = 16
          · rw [if_pos h16] at h
            cases h
            exact NoEmptyShared.leaf _ _
          · rw [if_neg h16] at h
            have hgP := getD_noEmptyShared (nibbles.set k0 r1.1) rn hsetP
            cases hg : (nibbles.set k0 r1.1).getD rn node.nil with
            | nil =>
              simp only [hg] at h
              cases h
              exact NoEmptyShared.branch _ _ hsetP
            | hash d =>
              simp only [hg] at h
              cases h
              exact NoEmptyShared.branch _ _ hsetP
            | leaf ke lv =>
              simp only [hg] at h
              cases h
              exact NoEmptyShared.leaf _ _
            | branch ns bv =>
              simp only [hg] at h
              cases h
              rw [hg] at hgP
              exact NoEmptyShared.extension _ _ (by simp) hgP
            | extension s nx =>
              simp only [hg] at h
              cases h
              rw [hg] at hgP
              cases hgP with
              | extension _ _ _ hnx => exact NoEmptyShared.extension _ _ (by simp) hnx
    | extension s nx hs hnx =>
      simp only [mpt.delete] at h
      obtain ⟨rest, hrest, h⟩ := bind_ok h
      obtain ⟨r1, hr1, h⟩ := bind_ok h
      have hr1P := ih _ _ _ hnx hr1
      by_cases h0 : r1.2.1 = false
      · rw [if_pos h0] at h
        cases h
        exact NoEmptyShared.extension _ _ hs hnx
      · rw [if_neg h0] at h
        obtain ⟨n1, ch1, e1⟩ := r1
        simp only at h hr1P
        cases n1 with
        | nil =>
          simp only at h
          cases h
          exact NoEmptyShared.extension _ _ hs hr1P
        | hash d =>
          simp only at h
          cases h
          exact NoEmptyShared.extension _ _ hs hr1P
        | branch ns bv =>
          simp only at h
          cases h
          exact NoEmptyShared.extension _ _ hs hr1P
        | leaf ke lv =>
          simp only at h
          cases h
          exact NoEmptyShared.leaf _ _
        | extension s2 n2 =>
          simp only at h
          cases h
          exact NoEmptyShared.extension _ _ (by simp [hs]) hr1P

/-- C27: if a fully resolved tree `t` has no extension with an empty
shared-nibble vector, then for every key and value neither the tree returned by
`set(t, k, v)` nor the tree returned by `delete(t, k)` has one (and both are
fully resolved), whenever the operation completes. -/
theorem set_delete_keep_shared_nonempty (c : Codec) (db : Option Store) (fuel : Nat) (t : node)
    (k : List Nat) (v : trieValue) (ht : NoEmptyShared t) :
    (∀ r, mpt.set c db fuel t k v = .ok r → NoEmptyShared r.1)
      ∧ (∀ r, mpt.delete c db fuel t k = .ok r → NoEmptyShared r.1) :=
  ⟨fun r h => set_noEmptyShared_tree c db fuel t k v r ht h,
   fun r h => delete_noEmptyShared_tree c db fuel t k r ht h⟩

/-- C27 at the tree of `("do","verb")` and `("dog","puppy")` with the key `"dop"`. -/
theorem set_delete_keep_shared_nonempty_witness :
    (∀ r, mpt.set ⟨fun _ => node.nil, fun _ => [], fun b => b⟩ none 4
          (.extension [6, 4, 6, 15] (.branch
            (emptyNibbles.set 6 (.leaf [7] (some [112, 117, 112, 112, 121])))
            (some [118, 101, 114, 98]))) (bytesToNibbles [100, 111, 112]) (some [120]) = .ok r →
        NoEmptyShared r.1)
      ∧ (∀ r, mpt.delete ⟨fun _ => node.nil, fun _ => [], fun b => b⟩ none 4
          (.extension [6, 4, 6, 15] (.branch
            (emptyNibbles.set 6 (.leaf [7] (some [112, 117, 112, 112, 121])))
            (some [118, 101, 114, 98]))) (bytesToNibbles [100, 111, 112]) = .ok r →
        NoEmptyShared r.1) :=
  set_delete_keep_shared_nonempty ⟨fun _ => node.nil, fun _ => [], fun b => b⟩ none 4
    (.extension [6, 4, 6, 15] (.branch
      (emptyNibbles.set 6 (.leaf [7] (some [112, 117, 112, 112, 121])))
      (some [118, 101, 114, 98]))) (bytesToNibbles [100, 111, 112]) (some [120])
    (NoEmptyShared.extension _ _ (by decide) (NoEmptyShared.branch _ _
      (set_noEmptyShared emptyNibbles 6 _ emptyNibbles_noEmptyShared (NoEmptyShared.leaf _ _))))

end Goloop
